import Mathlib

/-!
Verification of the `DisjunctiveConditionsRemover` compiler pass
(`unified_planning/engines/compilers/disjunctive_conditions_remover.py`).

The pass is embedded shallowly: expressions (`FNode`), actions, effects and
problems are algebraic values; the two formula-engine oracles (`Dnf` walker
and `FNode.simplify`, which live outside the excerpted sources) are modelled
from the specification; the compiler's own functions are translated
line-by-line from the source file.
-/

set_option maxHeartbeats 1000000

/-- Expression trees (the `FNode` type of the planning library).  Relevant
node kinds are AND, OR, NOT, TRUE, FALSE, and atomic fluent expressions
(identified by the fluent name).  AND and OR are n-ary, as in the library. -/
inductive FNode where
  | atom : String → FNode
  | trueE : FNode
  | falseE : FNode
  | notE : FNode → FNode
  | andE : List FNode → FNode
  | orE : List FNode → FNode

/-- Structural induction principle for `FNode` giving the hypothesis on every
member of the argument list of an AND/OR node. -/
theorem FNode.inductOn (P : FNode → Prop)
    (hatom : ∀ s, P (.atom s)) (htrue : P .trueE) (hfalse : P .falseE)
    (hnot : ∀ e, P e → P (.notE e))
    (hand : ∀ l, (∀ x ∈ l, P x) → P (.andE l))
    (hor : ∀ l, (∀ x ∈ l, P x) → P (.orE l)) : ∀ e, P e := by
  have key : ∀ n, ∀ e : FNode, sizeOf e ≤ n → P e := by
    intro n
    induction n with
    | zero => intro e he; cases e <;> simp at he
    | succ n ih =>
      intro e he
      cases e with
      | atom s => exact hatom s
      | trueE => exact htrue
      | falseE => exact hfalse
      | notE e1 =>
        refine hnot e1 (ih e1 ?_)
        simp at he; omega
      | andE l =>
        refine hand l (fun x hx => ih x ?_)
        have h1 := List.sizeOf_lt_of_mem hx
        simp at he; omega
      | orE l =>
        refine hor l (fun x hx => ih x ?_)
        have h1 := List.sizeOf_lt_of_mem hx
        simp at he; omega
  exact fun e => key (sizeOf e) e le_rfl

mutual

/-- Boolean structural equality on `FNode`. -/
def FNode.beq : FNode → FNode → Bool
  | .atom a, .atom b => a == b
  | .trueE, .trueE => true
  | .falseE, .falseE => true
  | .notE a, .notE b => FNode.beq a b
  | .andE a, .andE b => FNode.beqList a b
  | .orE a, .orE b => FNode.beqList a b
  | _, _ => false

/-- Pointwise `FNode.beq` on lists. -/
def FNode.beqList : List FNode → List FNode → Bool
  | [], [] => true
  | a :: as, b :: bs => FNode.beq a b && FNode.beqList as bs
  | _, _ => false

end

theorem FNode.beq_iff : ∀ a b : FNode, FNode.beq a b = true ↔ a = b := by
  have main : ∀ a : FNode,
      (∀ b, FNode.beq a b = true ↔ a = b) := by
    intro a
    induction a using FNode.inductOn with
    | hatom s => intro b; cases b <;> simp [FNode.beq]
    | htrue => intro b; cases b <;> simp [FNode.beq]
    | hfalse => intro b; cases b <;> simp [FNode.beq]
    | hnot e ih => intro b; cases b <;> simp [FNode.beq, ih]
    | hand l ih =>
      have lst : ∀ l2, FNode.beqList l l2 = true ↔ l = l2 := by
        induction l with
        | nil => intro l2; cases l2 <;> simp [FNode.beqList]
        | cons x xs ihl =>
          intro l2
          cases l2 with
          | nil => simp [FNode.beqList]
          | cons y ys =>
            have hx := ih x (by simp)
            have hxs := ihl (fun z hz => ih z (by simp [hz]))
            simp [FNode.beqList, hx y, hxs ys]
      intro b; cases b <;> simp [FNode.beq, lst]
    | hor l ih =>
      have lst : ∀ l2, FNode.beqList l l2 = true ↔ l = l2 := by
        induction l with
        | nil => intro l2; cases l2 <;> simp [FNode.beqList]
        | cons x xs ihl =>
          intro l2
          cases l2 with
          | nil => simp [FNode.beqList]
          | cons y ys =>
            have hx := ih x (by simp)
            have hxs := ihl (fun z hz => ih z (by simp [hz]))
            simp [FNode.beqList, hx y, hxs ys]
      intro b; cases b <;> simp [FNode.beq, lst]
  exact main

instance : DecidableEq FNode :=
  fun a b => decidable_of_iff (FNode.beq a b = true) (FNode.beq_iff a b)

namespace FNode

/-- `FNode.is_or`. -/
def is_or : FNode → Bool
  | orE _ => true
  | _ => false

/-- `FNode.is_and`. -/
def is_and : FNode → Bool
  | andE _ => true
  | _ => false

/-- `FNode.is_true`. -/
def is_true : FNode → Bool
  | trueE => true
  | _ => false

/-- `FNode.is_false`. -/
def is_false : FNode → Bool
  | falseE => true
  | _ => false

/-- `FNode.args`: the argument list of a node. -/
def args : FNode → List FNode
  | andE l => l
  | orE l => l
  | notE e => [e]
  | _ => []

end FNode

/-- `ExpressionManager.And`: an empty conjunction is TRUE and a singleton
conjunction is the element itself, as in the expression manager. -/
def mkAnd : List FNode → FNode
  | [] => .trueE
  | [x] => x
  | l => .andE l

/-- `ExpressionManager.Or`: an empty disjunction is FALSE and a singleton
disjunction is the element itself. -/
def mkOr : List FNode → FNode
  | [] => .falseE
  | [x] => x
  | l => .orE l

mutual

/-- Modelled from the spec: `simplify(expr) -> expr`, the formula-engine
oracle (an "idempotent reduction eliminating trivially-true/false sub-terms");
the walker itself is outside the excerpted sources.  Conjunctions drop TRUE
conjuncts and collapse to FALSE when a conjunct is FALSE; disjunctions drop
FALSE disjuncts and collapse to TRUE when a disjunct is TRUE; empty and
singleton lists collapse as in the expression manager. -/
def FNode.simplify : FNode → FNode
  | .atom s => .atom s
  | .trueE => .trueE
  | .falseE => .falseE
  | .notE e =>
      match FNode.simplify e with
      | .trueE => .falseE
      | .falseE => .trueE
      | s => .notE s
  | .andE l =>
      let ss := FNode.simplifyList l
      if ss.any FNode.is_false then .falseE
      else
        match ss.filter (fun e => !e.is_true) with
        | [] => .trueE
        | [x] => x
        | l2 => .andE l2
  | .orE l =>
      let ss := FNode.simplifyList l
      if ss.any FNode.is_true then .trueE
      else
        match ss.filter (fun e => !e.is_false) with
        | [] => .falseE
        | [x] => x
        | l2 => .orE l2

/-- Pointwise `simplify` on a list of arguments. -/
def FNode.simplifyList : List FNode → List FNode
  | [] => []
  | x :: xs => FNode.simplify x :: FNode.simplifyList xs

end

/-- All ways to pick one clause from each entry and concatenate them
(cartesian distribution of AND over clause sets). -/
def prodLists : List (List (List FNode)) → List (List FNode)
  | [] => [[]]
  | xs :: rest => xs.flatMap (fun c => (prodLists rest).map (fun r => c ++ r))

/-- Concatenation of clause sets (union of disjuncts). -/
def joinLists (ls : List (List (List FNode))) : List (List FNode) :=
  ls.foldr (fun a b => a ++ b) []

mutual

/-- Modelled from the spec: the clause sets underlying the `Dnf` walker
(`dnf(expr) -> expr`, the formula-engine oracle converting a formula into an
equivalent OR of ANDs; the walker itself is outside the excerpted sources).
`dnfD b e` is the list of conjunctive clauses (lists of literals; TRUE and
FALSE constants are kept as literals, as the walker performs no
simplification) of the DNF of `e` when `b` is true, and of `¬e` when `b`
is false. -/
def dnfD : Bool → FNode → List (List FNode)
  | b, .atom s => [[if b then .atom s else .notE (.atom s)]]
  | b, .trueE => [[if b then .trueE else .falseE]]
  | b, .falseE => [[if b then .falseE else .trueE]]
  | b, .notE e => dnfD (!b) e
  | b, .andE l => if b then prodLists (dnfDList b l) else joinLists (dnfDList b l)
  | b, .orE l => if b then joinLists (dnfDList b l) else prodLists (dnfDList b l)

/-- Pointwise `dnfD` on a list of arguments. -/
def dnfDList : Bool → List FNode → List (List (List FNode))
  | _, [] => []
  | b, x :: xs => dnfD b x :: dnfDList b xs

end

/-- Modelled from the spec: `Dnf.get_dnf_expression`, rebuilding the OR of
ANDs through the expression manager (so empty/singleton conjunctions and
disjunctions collapse). -/
def dnfExpr (e : FNode) : FNode :=
  mkOr ((dnfD true e).map mkAnd)

/-! ## Data model (problems, actions, effects) -/

/-- `Effect`: target fluent-expression, assigned value, guard condition
(`condition = TRUE` denotes an unconditional effect). -/
structure Effect where
  fluent : FNode
  value : FNode
  condition : FNode
deriving DecidableEq

/-- `Effect.is_conditional`: the guard is not the TRUE constant. -/
def Effect.is_conditional (e : Effect) : Bool :=
  !e.condition.is_true

/-- `Effect.set_condition` on a clone of the effect. -/
def Effect.set_condition (e : Effect) (c : FNode) : Effect :=
  { e with condition := c }

/-- `InstantaneousAction`: name, precondition list (implicit AND), effect
list. -/
structure InstantaneousAction where
  name : String
  preconditions : List FNode
  effects : List Effect
deriving DecidableEq

/-- `DurativeAction`: name, condition map (time interval → condition list)
and effect map (timing → effect list), both kept in insertion order.  Time
intervals and timings are opaque here and represented by numbers. -/
structure DurativeAction where
  name : String
  conditions : List (Nat × List FNode)
  effects : List (Nat × List Effect)
deriving DecidableEq

/-- The two action variants accepted by the compiler. -/
inductive UAction where
  | instA : InstantaneousAction → UAction
  | durA : DurativeAction → UAction
deriving DecidableEq

/-- The name of an action, for either variant. -/
def UAction.name : UAction → String
  | .instA a => a.name
  | .durA a => a.name

/-- A fluent declaration (only the name matters for this pass; the fresh
fluents introduced by the pass are boolean). -/
structure Fluent where
  name : String
deriving DecidableEq

/-- `Problem`: fluents with their default initial values, actions, plain
goal list and timed-goal map (time interval → goal list, insertion order). -/
structure Problem where
  name : String
  fluents : List Fluent
  fluentDefaults : List (String × FNode)
  actions : List UAction
  goals : List FNode
  timedGoals : List (Nat × List FNode)
deriving DecidableEq

/-- `Problem.add_action` appends the action. -/
def Problem.add_action (p : Problem) (a : UAction) : Problem :=
  { p with actions := p.actions ++ [a] }

/-- `Problem.add_fluent` with a default initial value. -/
def Problem.add_fluent (p : Problem) (f : Fluent) (dv : FNode) : Problem :=
  { p with fluents := p.fluents ++ [f],
           fluentDefaults := p.fluentDefaults ++ [(f.name, dv)] }

/-- `Problem.add_goal` appends to the plain goal list. -/
def Problem.add_goal (p : Problem) (g : FNode) : Problem :=
  { p with goals := p.goals ++ [g] }

/-- Append a value to the list stored at a key of an insertion-ordered
keyed map, creating the key at the end when absent (the behaviour of
`DurativeAction.add_condition` / `add_timed_goal` on dictionaries). -/
def addToKeyed {κ α : Type} [DecidableEq κ] :
    List (κ × List α) → κ → α → List (κ × List α)
  | [], k, v => [(k, [v])]
  | (k', vs) :: rest, k, v =>
      if k = k' then (k', vs ++ [v]) :: rest
      else (k', vs) :: addToKeyed rest k v

/-- `Problem.add_timed_goal` appends the goal at the given time interval. -/
def Problem.add_timed_goal (p : Problem) (t : Nat) (g : FNode) : Problem :=
  { p with timedGoals := addToKeyed p.timedGoals t g }

/-- Modelled from the spec: `Problem.has_name`, the name-in-use test backing
fresh-name allocation ("scoped to one problem's namespace"); the helper
lives outside the excerpted sources. -/
def Problem.has_name (p : Problem) (n : String) : Bool :=
  p.actions.any (fun a => a.name = n) || p.fluents.any (fun f => f.name = n)

/-- Modelled from the spec: `get_fresh_name` from the compilers' utilities
(outside the excerpted sources); returns the base name when unused,
otherwise the first `base_k` not in use.  The spec only requires that fresh
action/fluent names are unique within the problem's namespace. -/
def get_fresh_name (p : Problem) (base : String) : String :=
  if !p.has_name base then base
  else
    match (List.range (p.actions.length + p.fluents.length + 1)).find?
        (fun k => !p.has_name (base ++ "_" ++ toString k)) with
    | some k => base ++ "_" ++ toString k
    | none => base

/-! ## The compiler (`DisjunctiveConditionsRemover`) -/

/-- `itertools.product` over a list of choice lists: all ways of picking one
element from each list, in the library's order (rightmost varies fastest). -/
def prodL {α : Type} : List (List α) → List (List α)
  | [] => [[]]
  | xs :: rest => xs.flatMap (fun x => (prodL rest).map (fun r => x :: r))

/-- `CompilerResult`: the compiled problem, the translation map (keyed here
by the unique new-action name, mapping to the original action's name or to
none for witness actions) and the compiler identifier. -/
structure CompilerResult where
  problem : Problem
  map : List (String × Option String)
  name : String
deriving DecidableEq

namespace DisjunctiveConditionsRemover

/-- `self.name` of the engine. -/
def ename : String := "dcrm"

/-- The per-effect rebuilding loop that appears textually twice in the
source (in `_create_new_action_with_given_precond` and in
`_create_new_durative_action_with_given_conds_at_given_times`): an
unconditional effect is kept unchanged; a conditional effect's guard is
DNF-normalized and simplified, an OR guard yields one clone per disjunct,
a FALSE guard drops the effect, any other guard is installed as-is. -/
def rebuildEffect (e : Effect) : List Effect :=
  if e.is_conditional then
    let new_cond := (dnfExpr e.condition).simplify
    if new_cond.is_or then
      new_cond.args.map (fun and_exp => e.set_condition and_exp)
    else if !new_cond.is_false then [e.set_condition new_cond]
    else []
  else [e]

/-- `_create_new_action_with_given_precond`: clone under a fresh name, clear
and rebuild preconditions from the simplified disjunct (FALSE discards the
variant, an AND is flattened), clear and rebuild effects, discard the
variant when no effect survives. -/
def _create_new_action_with_given_precond (new_problem : Problem)
    (precond : FNode) (original_action : InstantaneousAction) :
    Option InstantaneousAction :=
  let nm := get_fresh_name new_problem original_action.name
  let precond := precond.simplify
  if precond.is_false then none
  else
    let preconds := if precond.is_and then precond.args else [precond]
    let new_effects := original_action.effects.flatMap rebuildEffect
    if new_effects.length = 0 then none
    else some { name := nm, preconditions := preconds, effects := new_effects }

/-- The condition-adding loop of
`_create_new_durative_action_with_given_conds_at_given_times`: walks the
zipped (interval, chosen disjunct) pairs, simplifying each disjunct;
returns none at the first FALSE, flattens an AND into separate conditions
for that interval, otherwise adds the single condition. -/
def addConds :
    List (Nat × FNode) → List (Nat × List FNode) → Option (List (Nat × List FNode))
  | [], acc => some acc
  | (i, c) :: rest, acc =>
      let c := c.simplify
      if c.is_false then none
      else if c.is_and then
        addConds rest (c.args.foldl (fun m co => addToKeyed m i co) acc)
      else addConds rest (addToKeyed acc i c)

/-- `_create_new_durative_action_with_given_conds_at_given_times`. -/
def _create_new_durative_action_with_given_conds_at_given_times
    (new_problem : Problem) (interval_list : List Nat) (cond_list : List FNode)
    (original_action : DurativeAction) : Option DurativeAction :=
  let nm := get_fresh_name new_problem original_action.name
  match addConds (interval_list.zip cond_list) [] with
  | none => none
  | some conds =>
      let pairs := original_action.effects.map
        (fun te => (te.1, te.2.flatMap rebuildEffect))
      let new_effects := pairs.filter (fun te => !te.2.isEmpty)
      if new_effects.length = 0 then none
      else some { name := nm, conditions := conds, effects := new_effects }

/-- The base name for the synthetic goal elements: the compiler's identifier,
with a `_timed` suffix for a timed goal. -/
def goalNewName (timing : Option Nat) : String :=
  match timing with
  | none => ename
  | some _ => ename ++ "_timed"

/-- The fresh flag fluent (`fake_fluent`) introduced for a disjunctive
(timed) goal. -/
def goalFakeFluent (new_problem : Problem) (timing : Option Nat) : Fluent :=
  ⟨get_fresh_name new_problem (goalNewName timing ++ "_fake_goal")⟩

/-- The synthetic `fake_action` (no preconditions, single unconditional
effect setting the flag fluent true) used as the original action of the
witness variants. -/
def goalFakeAction (new_problem : Problem) (timing : Option Nat) :
    InstantaneousAction :=
  { name := goalNewName timing ++ "_fake_action",
    preconditions := [],
    effects := [⟨FNode.atom (goalFakeFluent new_problem timing).name,
                 FNode.trueE, FNode.trueE⟩] }

/-- `_remove_disjunctions_from_goals_adding_new_elements`: DNF the conjoined
goal list; a non-OR result is installed directly as the (timed) goal; an OR
result introduces a fresh flag fluent (default FALSE) and one witness action
per disjunct (each mapped to none), and installs the flag alone as the
(timed) goal. -/
def _remove_disjunctions_from_goals_adding_new_elements
    (new_problem : Problem) (new_to_old : List (String × Option String))
    (new_fluents : List Fluent) (goals : List FNode) (timing : Option Nat) :
    Problem × List (String × Option String) × List Fluent :=
  let new_goal := dnfExpr (mkAnd goals)
  if new_goal.is_or then
    let fake_fluent : Fluent := goalFakeFluent new_problem timing
    let fake_action : InstantaneousAction := goalFakeAction new_problem timing
    let st := new_goal.args.foldl
      (fun (st : Problem × List (String × Option String)) and_exp =>
        match _create_new_action_with_given_precond st.1 and_exp fake_action with
        | some na => (st.1.add_action (.instA na), st.2 ++ [(na.name, none)])
        | none => st)
      (new_problem, new_to_old)
    let np := st.1.add_fluent fake_fluent FNode.falseE
    let np := match timing with
      | none => np.add_goal (FNode.atom fake_fluent.name)
      | some t => np.add_timed_goal t (FNode.atom fake_fluent.name)
    (np, st.2, new_fluents ++ [fake_fluent])
  else
    match timing with
    | none => (new_problem.add_goal new_goal, new_to_old, new_fluents)
    | some t => (new_problem.add_timed_goal t new_goal, new_to_old, new_fluents)

/-- The `InstantaneousAction` branch of `_compile`'s action loop: DNF the
conjoined preconditions; an OR is split per disjunct, anything else is a
single disjunct; surviving variants are added to the problem and mapped to
the original action. -/
def iaBranch (st : Problem × List (String × Option String))
    (a : InstantaneousAction) : Problem × List (String × Option String) :=
  let new_precond := dnfExpr (mkAnd a.preconditions)
  if new_precond.is_or then
    new_precond.args.foldl
      (fun st2 and_exp =>
        match _create_new_action_with_given_precond st2.1 and_exp a with
        | some na => (st2.1.add_action (.instA na), st2.2 ++ [(na.name, some a.name)])
        | none => st2) st
  else
    match _create_new_action_with_given_precond st.1 new_precond a with
    | some na => (st.1.add_action (.instA na), st.2 ++ [(na.name, some a.name)])
    | none => st

/-- The `DurativeAction` branch of `_compile`'s action loop: per-interval
DNF disjunct sets (singleton when non-OR), cartesian product, one candidate
variant per tuple; surviving variants are added and mapped to the original
action. -/
def daBranch (st : Problem × List (String × Option String))
    (a : DurativeAction) : Problem × List (String × Option String) :=
  let interval_list := a.conditions.map (fun icl => icl.1)
  let conditions := a.conditions.map (fun icl =>
    let new_cond := dnfExpr (mkAnd icl.2)
    if new_cond.is_or then new_cond.args else [new_cond])
  (prodL conditions).foldl
    (fun st2 cond_list =>
      match _create_new_durative_action_with_given_conds_at_given_times
          st2.1 interval_list cond_list a with
      | some nda => (st2.1.add_action (.durA nda), st2.2 ++ [(nda.name, some a.name)])
      | none => st2) st

/-- The reset effects `flag := FALSE` (unconditional) built from the fresh
fluents, as in `_compile`'s final loop. -/
def resetEffects (new_fluents : List Fluent) : List Effect :=
  new_fluents.map (fun f => ⟨FNode.atom f.name, FNode.falseE, FNode.trueE⟩)

/-- The reset-injection applied to one meaningful action: an instantaneous
action appends the reset effects once; a durative action appends them at
every timing already present in its effect map. -/
def addResets (new_effects : List Effect) : UAction → UAction
  | .instA a => .instA { a with effects := a.effects ++ new_effects }
  | .durA a => .durA { a with effects := a.effects.map (fun te => (te.1, te.2 ++ new_effects)) }

/-- The action-splitting loop of `_compile` over the source actions, started
on the cleared clone: every source action goes through its branch. -/
def actionsStage (problem : Problem) : Problem × List (String × Option String) :=
  let new_problem0 : Problem :=
    { problem with
        name := ename ++ "_" ++ problem.name,
        actions := [], goals := [], timedGoals := [] }
  problem.actions.foldl
    (fun st a =>
      match a with
      | .instA ia => iaBranch st ia
      | .durA da => daBranch st da)
    (new_problem0, ([] : List (String × Option String)))

/-- The goal-elimination part of `_compile`: the plain goal first, then every
timed-goal entry of the source problem, threading problem, translation map
and fresh-fluent list. -/
def goalsStage (problem : Problem) (st1 : Problem × List (String × Option String)) :
    Problem × List (String × Option String) × List Fluent :=
  let st2 := _remove_disjunctions_from_goals_adding_new_elements
    st1.1 st1.2 [] problem.goals none
  problem.timedGoals.foldl
    (fun (st : Problem × List (String × Option String) × List Fluent) tg =>
      _remove_disjunctions_from_goals_adding_new_elements
        st.1 st.2.1 st.2.2 tg.2 (some tg.1))
    st2

/-- `_compile`: clone with cleared actions/goals/timed goals, split every
source action, eliminate disjunctions from the plain and every timed goal,
then inject the flag resets into the meaningful actions (the snapshot taken
before goal elimination, i.e. the prefix of the action list). -/
def _compile (problem : Problem) : CompilerResult :=
  let st1 := actionsStage problem
  let n := st1.1.actions.length
  let st3 := goalsStage problem st1
  let new_effects := resetEffects st3.2.2
  let final_problem :=
    { st3.1 with actions :=
        (st3.1.actions.take n).map (addResets new_effects) ++ st3.1.actions.drop n }
  ⟨final_problem, st3.2.1, ename⟩

end DisjunctiveConditionsRemover

/-! ## Concrete scenarios from the specification -/

/-- The C2 scenario: one instantaneous action `act` with precondition
`(a ∧ b) ∨ c` and unconditional effect `d := TRUE`, no goals. -/
def scenarioC2 : Problem :=
  ⟨"p2", [⟨"a"⟩, ⟨"b"⟩, ⟨"c"⟩, ⟨"d"⟩], [],
   [.instA ⟨"act", [.orE [.andE [.atom "a", .atom "b"], .atom "c"]],
     [⟨.atom "d", .trueE, .trueE⟩]⟩],
   [], []⟩

/-- The C3 scenario: one instantaneous action `go` (precondition `p`,
effect `d := TRUE`) and plain goal `x ∨ y`. -/
def scenarioC3 : Problem :=
  ⟨"p3", [⟨"x"⟩, ⟨"y"⟩, ⟨"d"⟩, ⟨"p"⟩], [],
   [.instA ⟨"go", [.atom "p"], [⟨.atom "d", .trueE, .trueE⟩]⟩],
   [.orE [.atom "x", .atom "y"]], []⟩

/-! ## Claims -/

/-- C2: compiling a problem containing a single InstantaneousAction with
precondition `(a ∧ b) ∨ c` and one unconditional effect `d := TRUE` (and no
disjunctive goals) produces exactly two actions — one with precondition list
`{a, b}` and effect `d := TRUE`, one with precondition list `{c}` and effect
`d := TRUE` — and the translation map sends both new actions to the original
action. -/
theorem claim_C2 :
    (DisjunctiveConditionsRemover._compile scenarioC2).problem.actions =
      [.instA ⟨"act", [.atom "a", .atom "b"], [⟨.atom "d", .trueE, .trueE⟩]⟩,
       .instA ⟨"act_0", [.atom "c"], [⟨.atom "d", .trueE, .trueE⟩]⟩] ∧
    (DisjunctiveConditionsRemover._compile scenarioC2).map =
      [("act", some "act"), ("act_0", some "act")] := by decide

/-- C3: compiling a problem whose plain goal is `x ∨ y` adds exactly one
fresh boolean fluent with default initial value FALSE, adds exactly two
witness actions (preconditions `{x}` and `{y}`, each with single effect
`flag := TRUE`, each mapped to none), installs the flag alone as the new
plain goal, and adds an unconditional `flag := FALSE` effect to every
non-witness action. -/
theorem claim_C3 :
    (DisjunctiveConditionsRemover._compile scenarioC3).problem.fluents =
      scenarioC3.fluents ++ [⟨"dcrm_fake_goal"⟩] ∧
    (DisjunctiveConditionsRemover._compile scenarioC3).problem.fluentDefaults =
      [("dcrm_fake_goal", .falseE)] ∧
    (DisjunctiveConditionsRemover._compile scenarioC3).problem.actions =
      [.instA ⟨"go", [.atom "p"],
         [⟨.atom "d", .trueE, .trueE⟩, ⟨.atom "dcrm_fake_goal", .falseE, .trueE⟩]⟩,
       .instA ⟨"dcrm_fake_action", [.atom "x"],
         [⟨.atom "dcrm_fake_goal", .trueE, .trueE⟩]⟩,
       .instA ⟨"dcrm_fake_action_0", [.atom "y"],
         [⟨.atom "dcrm_fake_goal", .trueE, .trueE⟩]⟩] ∧
    (DisjunctiveConditionsRemover._compile scenarioC3).problem.goals =
      [.atom "dcrm_fake_goal"] ∧
    (DisjunctiveConditionsRemover._compile scenarioC3).map =
      [("go", some "go"), ("dcrm_fake_action", none), ("dcrm_fake_action_0", none)] := by
  decide

/-- Modelled from the spec: `ProblemKind` is a set of feature flags (the
class itself lives outside the excerpted sources); kept as a list of
feature names. -/
structure ProblemKind where
  features : List String
deriving DecidableEq

/-- Modelled from the spec: `ProblemKind.unset_conditions_kind` removes one
conditions-kind feature flag, leaving the rest unchanged. -/
def ProblemKind.unset_conditions_kind (pk : ProblemKind) (f : String) : ProblemKind :=
  ⟨pk.features.filter (fun x => x ≠ f)⟩

/-- `DisjunctiveConditionsRemover.resulting_problem_kind`: copy the input
kind's features, then unset `DISJUNCTIVE_CONDITIONS`. -/
def DisjunctiveConditionsRemover.resulting_problem_kind (problem_kind : ProblemKind) :
    ProblemKind :=
  (ProblemKind.mk problem_kind.features).unset_conditions_kind "DISJUNCTIVE_CONDITIONS"

/-- C8: `resulting_problem_kind` returns, for every input problem kind,
exactly the input's feature set with the `DISJUNCTIVE_CONDITIONS` flag
removed and every other feature flag unchanged. -/
theorem claim_C8 (pk : ProblemKind) (f : String) :
    f ∈ (DisjunctiveConditionsRemover.resulting_problem_kind pk).features ↔
      f ∈ pk.features ∧ f ≠ "DISJUNCTIVE_CONDITIONS" := by
  simp [DisjunctiveConditionsRemover.resulting_problem_kind,
        ProblemKind.unset_conditions_kind, List.mem_filter]

/-! ## Discarded variants (C5) -/

namespace DisjunctiveConditionsRemover

/-- If any chosen (interval, disjunct) pair has a disjunct that simplifies
to FALSE, the condition-adding loop rejects the whole combination. -/
theorem addConds_none : ∀ (l : List (Nat × FNode)) (acc : List (Nat × List FNode)),
    (∃ p ∈ l, (FNode.simplify p.2).is_false) → addConds l acc = none := by
  intro l
  induction l with
  | nil => intro acc h; simp at h
  | cons hd tl ih =>
    intro acc h
    obtain ⟨i, c⟩ := hd
    by_cases hf : (FNode.simplify c).is_false
    · simp [addConds, hf]
    · rcases h with ⟨p, hp, hps⟩
      rcases List.mem_cons.mp hp with rfl | hmem
      · exact absurd hps hf
      · by_cases ha : (FNode.simplify c).is_and
        · simp only [addConds, hf, ha, Bool.false_eq_true, if_false, if_true]
          exact ih _ ⟨p, hmem, hps⟩
        · simp only [addConds, hf, ha, Bool.false_eq_true, if_false]
          exact ih _ ⟨p, hmem, hps⟩

end DisjunctiveConditionsRemover

/-- The C5 scenario: `bad1` has precondition FALSE; `bad2` has only one
conditional effect whose guard is FALSE. -/
def scenarioC5 : Problem :=
  ⟨"p5", [⟨"a"⟩, ⟨"d"⟩], [],
   [.instA ⟨"bad1", [.falseE], [⟨.atom "d", .trueE, .trueE⟩]⟩,
    .instA ⟨"bad2", [.atom "a"], [⟨.atom "d", .trueE, .falseE⟩]⟩],
   [], []⟩

/-- An instantaneous action whose only effect is guarded by FALSE. -/
def condOnlyAct : InstantaneousAction :=
  ⟨"ca", [.atom "a"], [⟨.atom "d", .trueE, .falseE⟩]⟩

/-- A durative action whose only effect is guarded by FALSE. -/
def condOnlyDur : DurativeAction :=
  ⟨"cd", [(0, [.atom "a"])], [(0, [⟨.atom "d", .trueE, .falseE⟩])]⟩

/-- C5: a variant whose simplified precondition (or, for a durative variant,
some chosen interval disjunct) is FALSE, or whose rebuilt effect list is
empty, is silently discarded (the builder returns none, no error); in
particular the C5 scenario — one action with FALSE precondition and one
whose only effect has an unreachable guard — compiles to zero actions. -/
theorem claim_C5 :
    (∀ (np : Problem) (pre : FNode) (a : InstantaneousAction),
      (FNode.simplify pre).is_false →
      DisjunctiveConditionsRemover._create_new_action_with_given_precond np pre a = none) ∧
    (∀ (np : Problem) (pre : FNode) (a : InstantaneousAction),
      a.effects.flatMap DisjunctiveConditionsRemover.rebuildEffect = [] →
      DisjunctiveConditionsRemover._create_new_action_with_given_precond np pre a = none) ∧
    (∀ (np : Problem) (il : List Nat) (cl : List FNode) (da : DurativeAction),
      (∃ p ∈ il.zip cl, (FNode.simplify p.2).is_false) →
      DisjunctiveConditionsRemover._create_new_durative_action_with_given_conds_at_given_times
        np il cl da = none) ∧
    (∀ (np : Problem) (il : List Nat) (cl : List FNode) (da : DurativeAction),
      (∀ te ∈ da.effects, te.2.flatMap DisjunctiveConditionsRemover.rebuildEffect = []) →
      DisjunctiveConditionsRemover._create_new_durative_action_with_given_conds_at_given_times
        np il cl da = none) ∧
    ((DisjunctiveConditionsRemover._compile scenarioC5).problem.actions = [] ∧
     (DisjunctiveConditionsRemover._compile scenarioC5).map = []) := by
  refine ⟨?_, ?_, ?_, ?_, by decide⟩
  · intro np pre a h
    simp [DisjunctiveConditionsRemover._create_new_action_with_given_precond, h]
  · intro np pre a h
    by_cases hf : (FNode.simplify pre).is_false
    · simp [DisjunctiveConditionsRemover._create_new_action_with_given_precond, hf]
    · simp [DisjunctiveConditionsRemover._create_new_action_with_given_precond, hf, h]
  · intro np il cl da h
    simp [DisjunctiveConditionsRemover._create_new_durative_action_with_given_conds_at_given_times,
          DisjunctiveConditionsRemover.addConds_none _ _ h]
  · intro np il cl da h
    cases hac : DisjunctiveConditionsRemover.addConds (il.zip cl) [] with
    | none =>
      simp [DisjunctiveConditionsRemover._create_new_durative_action_with_given_conds_at_given_times,
            hac]
    | some conds =>
      have hfil : (da.effects.map
          (fun te => (te.1, te.2.flatMap DisjunctiveConditionsRemover.rebuildEffect))).filter
          (fun te => !te.2.isEmpty) = [] := by
        rw [List.filter_eq_nil_iff]
        intro te hte
        rcases List.mem_map.mp hte with ⟨te0, hte0, rfl⟩
        simp [h te0 hte0]
      simp [DisjunctiveConditionsRemover._create_new_durative_action_with_given_conds_at_given_times,
            hac, hfil]

/-- Witness for C5: each hypothesis discharged at a concrete input — a FALSE
precondition, an all-guards-FALSE instantaneous action, a FALSE chosen
disjunct for a durative action, and an all-guards-FALSE durative action. -/
theorem claim_C5_witness :
    DisjunctiveConditionsRemover._create_new_action_with_given_precond
      scenarioC5 FNode.falseE condOnlyAct = none ∧
    DisjunctiveConditionsRemover._create_new_action_with_given_precond
      scenarioC5 (FNode.atom "a") condOnlyAct = none ∧
    DisjunctiveConditionsRemover._create_new_durative_action_with_given_conds_at_given_times
      scenarioC5 [0] [FNode.falseE] condOnlyDur = none ∧
    DisjunctiveConditionsRemover._create_new_durative_action_with_given_conds_at_given_times
      scenarioC5 [0] [FNode.atom "a"] condOnlyDur = none :=
  ⟨claim_C5.1 _ _ _ (by decide),
   claim_C5.2.1 _ _ _ (by decide),
   claim_C5.2.2.1 _ _ _ _ (by decide),
   claim_C5.2.2.2.1 _ _ _ _ (by decide)⟩

/-! ## Generic list lemmas -/

/-- Invariant preservation through `List.foldl` when every step from a list
member preserves the invariant. -/
theorem foldl_inv {σ β : Type} (inv : σ → Prop) (f : σ → β → σ) :
    ∀ (l : List β), (∀ st b, b ∈ l → inv st → inv (f st b)) →
    ∀ st, inv st → inv (l.foldl f st) := by
  intro l
  induction l with
  | nil => intro _ st h; simpa using h
  | cons x xs ih =>
    intro hstep st h
    simp only [List.foldl_cons]
    exact ih (fun st2 b hb => hstep st2 b (List.mem_cons_of_mem x hb))
      (f st x) (hstep st x (List.mem_cons_self x xs) h)

/-- A `List.foldl` whose every step fixes the state returns the state. -/
theorem foldl_fixed {σ β : Type} (f : σ → β → σ) (s : σ) :
    ∀ (l : List β), (∀ b ∈ l, f s b = s) → l.foldl f s = s := by
  intro l
  induction l with
  | nil => intro _; rfl
  | cons x xs ih =>
    intro h
    simp only [List.foldl_cons, h x (List.mem_cons_self x xs)]
    exact ih (fun b hb => h b (List.mem_cons_of_mem x hb))

/-- Every element of a tuple produced by `prodL` comes from the
corresponding choice list. -/
theorem prodL_mem {α : Type} :
    ∀ (L : List (List α)) (r : List α), r ∈ prodL L → ∀ x ∈ r, ∃ xs ∈ L, x ∈ xs := by
  intro L
  induction L with
  | nil =>
    intro r hr x hx
    simp [prodL] at hr
    subst hr
    simp at hx
  | cons ys L ih =>
    intro r hr x hx
    simp only [prodL, List.mem_flatMap, List.mem_map] at hr
    obtain ⟨y, hy, rest, hrest, rfl⟩ := hr
    rcases List.mem_cons.mp hx with rfl | hxr
    · exact ⟨ys, by simp, hy⟩
    · obtain ⟨xs, hxs, hxxs⟩ := ih rest hrest x hxr
      exact ⟨xs, by simp [hxs], hxxs⟩

/-- Every element of a clause produced by `prodLists` comes from a clause of
one of the clause sets. -/
theorem prodLists_mem :
    ∀ (L : List (List (List FNode))) (r : List FNode), r ∈ prodLists L →
      ∀ x ∈ r, ∃ cs ∈ L, ∃ c ∈ cs, x ∈ c := by
  intro L
  induction L with
  | nil =>
    intro r hr x hx
    simp [prodLists] at hr
    subst hr
    simp at hx
  | cons ys L ih =>
    intro r hr x hx
    simp only [prodLists, List.mem_flatMap, List.mem_map] at hr
    obtain ⟨c, hc, rest, hrest, rfl⟩ := hr
    rcases List.mem_append.mp hx with hxc | hxr
    · exact ⟨ys, by simp, c, hc, hxc⟩
    · obtain ⟨cs, hcs, c2, hc2, hxc2⟩ := ih rest hrest x hxr
      exact ⟨cs, by simp [hcs], c2, hc2, hxc2⟩

/-- Every clause of `joinLists` is a clause of one of the clause sets. -/
theorem joinLists_mem :
    ∀ (L : List (List (List FNode))) (c : List FNode), c ∈ joinLists L →
      ∃ cs ∈ L, c ∈ cs := by
  intro L
  induction L with
  | nil => intro c hc; simp [joinLists] at hc
  | cons ys L ih =>
    intro c hc
    simp only [joinLists, List.foldr_cons] at hc
    rcases List.mem_append.mp hc with h | h
    · exact ⟨ys, by simp, h⟩
    · obtain ⟨cs, hcs, hccs⟩ := ih c h
      exact ⟨cs, by simp [hcs], hccs⟩

/-- `simplifyList` is pointwise `simplify`. -/
theorem simplifyList_eq : ∀ l : List FNode, FNode.simplifyList l = l.map FNode.simplify := by
  intro l
  induction l with
  | nil => rfl
  | cons x xs ih => simp [FNode.simplifyList, ih]

/-- `dnfDList` is pointwise `dnfD`. -/
theorem dnfDList_eq : ∀ (b : Bool) (l : List FNode), dnfDList b l = l.map (dnfD b) := by
  intro b l
  induction l with
  | nil => rfl
  | cons x xs ih => simp [dnfDList, ih]

/-! ## OR-freedom -/

mutual

/-- No OR node occurs anywhere in the expression. -/
def FNode.orFree : FNode → Bool
  | .atom _ => true
  | .trueE => true
  | .falseE => true
  | .notE e => FNode.orFree e
  | .andE l => FNode.orFreeList l
  | .orE _ => false

/-- `orFree` on every member of a list. -/
def FNode.orFreeList : List FNode → Bool
  | [] => true
  | x :: xs => FNode.orFree x && FNode.orFreeList xs

end

theorem orFreeList_eq : ∀ l : List FNode, FNode.orFreeList l = l.all FNode.orFree := by
  intro l
  induction l with
  | nil => rfl
  | cons x xs ih => simp [FNode.orFreeList, ih, List.all_cons]

theorem orFree_not_is_or : ∀ e : FNode, FNode.orFree e = true → e.is_or = false := by
  intro e h
  cases e <;> simp_all [FNode.orFree, FNode.is_or]

/-- A map whose function fixes every member is the identity. -/
theorem map_id_of_mem {α : Type} (f : α → α) :
    ∀ l : List α, (∀ x ∈ l, f x = x) → l.map f = l := by
  intro l
  induction l with
  | nil => intro _; rfl
  | cons x xs ih =>
    intro h
    simp only [List.map_cons, h x (List.mem_cons_self x xs)]
    rw [ih (fun z hz => h z (List.mem_cons_of_mem x hz))]

/-- A filter whose predicate holds on every member is the identity. -/
theorem filter_all_true {α : Type} (p : α → Bool) :
    ∀ l : List α, (∀ x ∈ l, p x = true) → l.filter p = l := by
  intro l
  induction l with
  | nil => intro _; rfl
  | cons x xs ih =>
    intro h
    simp only [List.filter_cons, h x (List.mem_cons_self x xs), if_true]
    rw [ih (fun z hz => h z (List.mem_cons_of_mem x hz))]

/-- `any` is false when the predicate fails on every member. -/
theorem any_false_of_all {α : Type} (p : α → Bool) :
    ∀ l : List α, (∀ x ∈ l, p x = false) → l.any p = false := by
  intro l
  induction l with
  | nil => intro _; rfl
  | cons x xs ih =>
    intro h
    simp only [List.any_cons, h x (List.mem_cons_self x xs), Bool.false_or]
    exact ih (fun z hz => h z (List.mem_cons_of_mem x hz))

/-! ## Properties of the `simplify` oracle -/

/-- Unfolding of `simplify` on a NOT node. -/
theorem simplify_notE (e : FNode) :
    FNode.simplify (FNode.notE e) =
      (match FNode.simplify e with
       | .trueE => .falseE
       | .falseE => .trueE
       | s => .notE s) := by
  simp only [FNode.simplify]

/-- Unfolding of `simplify` on an AND node. -/
theorem simplify_andE (l : List FNode) :
    FNode.simplify (FNode.andE l) =
      (if (l.map FNode.simplify).any FNode.is_false then FNode.falseE
       else
         match (l.map FNode.simplify).filter (fun e => !e.is_true) with
         | [] => FNode.trueE
         | [x] => x
         | l2 => FNode.andE l2) := by
  simp only [FNode.simplify, simplifyList_eq]

/-- Unfolding of `simplify` on an OR node. -/
theorem simplify_orE (l : List FNode) :
    FNode.simplify (FNode.orE l) =
      (if (l.map FNode.simplify).any FNode.is_true then FNode.trueE
       else
         match (l.map FNode.simplify).filter (fun e => !e.is_false) with
         | [] => FNode.falseE
         | [x] => x
         | l2 => FNode.orE l2) := by
  simp only [FNode.simplify, simplifyList_eq]

/-- The spec requires `simplify` to be idempotent; the model is. -/
theorem simplify_idem : ∀ e : FNode, (FNode.simplify e).simplify = FNode.simplify e := by
  intro e
  induction e using FNode.inductOn with
  | hatom s => simp [FNode.simplify]
  | htrue => simp [FNode.simplify]
  | hfalse => simp [FNode.simplify]
  | hnot e ih =>
    rw [simplify_notE]
    cases he : FNode.simplify e with
    | trueE => simp [FNode.simplify]
    | falseE => simp [FNode.simplify]
    | atom s => simp [FNode.simplify]
    | notE e2 =>
      rw [he] at ih
      rw [simplify_notE, ih]
    | andE l2 =>
      rw [he] at ih
      rw [simplify_notE, ih]
    | orE l2 =>
      rw [he] at ih
      rw [simplify_notE, ih]
  | hand l ih =>
    rw [simplify_andE]
    by_cases h1 : (l.map FNode.simplify).any FNode.is_false = true
    · simp [h1, FNode.simplify]
    · rw [if_neg h1]
      cases h2 : (l.map FNode.simplify).filter (fun e => !e.is_true) with
      | nil => simp [FNode.simplify]
      | cons x xs =>
        cases xs with
        | nil =>
          have hx : x ∈ (l.map FNode.simplify).filter (fun e => !e.is_true) := by
            rw [h2]; exact List.mem_singleton_self x
          obtain ⟨y, hy, rfl⟩ := List.mem_map.mp (List.mem_of_mem_filter hx)
          exact ih y hy
        | cons x2 xs2 =>
          have hsub : ∀ z ∈ x :: x2 :: xs2,
              z ∈ (l.map FNode.simplify).filter (fun e => !e.is_true) := by
            intro z hz; rw [h2]; exact hz
          have hidem : ∀ z ∈ x :: x2 :: xs2, FNode.simplify z = z := by
            intro z hz
            obtain ⟨y, hy, rfl⟩ :=
              List.mem_map.mp (List.mem_of_mem_filter (hsub z hz))
            exact ih y hy
          rw [simplify_andE, map_id_of_mem _ _ hidem]
          have hnf : (x :: x2 :: xs2).any FNode.is_false = false := by
            refine any_false_of_all _ _ (fun z hz => ?_)
            have hzm := List.mem_of_mem_filter (hsub z hz)
            rcases hb : FNode.is_false z with _ | _
            · rfl
            · exfalso
              have : (l.map FNode.simplify).any FNode.is_false = true :=
                List.any_eq_true.mpr ⟨z, hzm, hb⟩
              exact h1 this
          rw [hnf]
          simp only [Bool.false_eq_true, if_false]
          have hft : (x :: x2 :: xs2).filter (fun e => !e.is_true) = x :: x2 :: xs2 := by
            refine filter_all_true _ _ (fun z hz => ?_)
            have hz2 := List.of_mem_filter (hsub z hz)
            simpa using hz2
          rw [hft]
  | hor l ih =>
    rw [simplify_orE]
    by_cases h1 : (l.map FNode.simplify).any FNode.is_true = true
    · simp [h1, FNode.simplify]
    · rw [if_neg h1]
      cases h2 : (l.map FNode.simplify).filter (fun e => !e.is_false) with
      | nil => simp [FNode.simplify]
      | cons x xs =>
        cases xs with
        | nil =>
          have hx : x ∈ (l.map FNode.simplify).filter (fun e => !e.is_false) := by
            rw [h2]; exact List.mem_singleton_self x
          obtain ⟨y, hy, rfl⟩ := List.mem_map.mp (List.mem_of_mem_filter hx)
          exact ih y hy
        | cons x2 xs2 =>
          have hsub : ∀ z ∈ x :: x2 :: xs2,
              z ∈ (l.map FNode.simplify).filter (fun e => !e.is_false) := by
            intro z hz; rw [h2]; exact hz
          have hidem : ∀ z ∈ x :: x2 :: xs2, FNode.simplify z = z := by
            intro z hz
            obtain ⟨y, hy, rfl⟩ :=
              List.mem_map.mp (List.mem_of_mem_filter (hsub z hz))
            exact ih y hy
          rw [simplify_orE, map_id_of_mem _ _ hidem]
          have hnt : (x :: x2 :: xs2).any FNode.is_true = false := by
            refine any_false_of_all _ _ (fun z hz => ?_)
            have hzm := List.mem_of_mem_filter (hsub z hz)
            rcases hb : FNode.is_true z with _ | _
            · rfl
            · exfalso
              have : (l.map FNode.simplify).any FNode.is_true = true :=
                List.any_eq_true.mpr ⟨z, hzm, hb⟩
              exact h1 this
          rw [hnt]
          simp only [Bool.false_eq_true, if_false]
          have hff : (x :: x2 :: xs2).filter (fun e => !e.is_false) = x :: x2 :: xs2 := by
            refine filter_all_true _ _ (fun z hz => ?_)
            have hz2 := List.of_mem_filter (hsub z hz)
            simpa using hz2
          rw [hff]

/-- When `simplify` returns an OR, each disjunct is itself simplified
(idempotence) and is not FALSE (FALSE disjuncts were dropped). -/
theorem simplify_or_args : ∀ e : FNode, (FNode.simplify e).is_or = true →
    ∀ d ∈ (FNode.simplify e).args, FNode.simplify d = d ∧ d.is_false = false := by
  intro e
  induction e using FNode.inductOn with
  | hatom s => simp [FNode.simplify, FNode.is_or]
  | htrue => simp [FNode.simplify, FNode.is_or]
  | hfalse => simp [FNode.simplify, FNode.is_or]
  | hnot e ih =>
    rw [simplify_notE]
    cases he : FNode.simplify e <;> simp [FNode.is_or]
  | hand l ih =>
    rw [simplify_andE]
    by_cases h1 : (l.map FNode.simplify).any FNode.is_false = true
    · simp [h1, FNode.is_or]
    · rw [if_neg h1]
      cases h2 : (l.map FNode.simplify).filter (fun e => !e.is_true) with
      | nil => simp [FNode.is_or]
      | cons x xs =>
        cases xs with
        | nil =>
          have hx : x ∈ (l.map FNode.simplify).filter (fun e => !e.is_true) := by
            rw [h2]; exact List.mem_singleton_self x
          obtain ⟨y, hy, rfl⟩ := List.mem_map.mp (List.mem_of_mem_filter hx)
          exact ih y hy
        | cons x2 xs2 => simp [FNode.is_or]
  | hor l ih =>
    rw [simplify_orE]
    by_cases h1 : (l.map FNode.simplify).any FNode.is_true = true
    · simp [h1, FNode.is_or]
    · rw [if_neg h1]
      cases h2 : (l.map FNode.simplify).filter (fun e => !e.is_false) with
      | nil => simp [FNode.is_or]
      | cons x xs =>
        cases xs with
        | nil =>
          have hx : x ∈ (l.map FNode.simplify).filter (fun e => !e.is_false) := by
            rw [h2]; exact List.mem_singleton_self x
          obtain ⟨y, hy, rfl⟩ := List.mem_map.mp (List.mem_of_mem_filter hx)
          exact ih y hy
        | cons x2 xs2 =>
          intro _ d hd
          have hdm : d ∈ (l.map FNode.simplify).filter (fun e => !e.is_false) := by
            rw [h2]; simpa [FNode.args] using hd
          obtain ⟨y, hy, rfl⟩ := List.mem_map.mp (List.mem_of_mem_filter hdm)
          refine ⟨simplify_idem y, ?_⟩
          have hkept := List.of_mem_filter hdm
          simpa using hkept

/-- `simplify` preserves the absence of OR nodes. -/
theorem orFree_simplify : ∀ e : FNode,
    FNode.orFree e = true → FNode.orFree (FNode.simplify e) = true := by
  intro e
  induction e using FNode.inductOn with
  | hatom s => simp [FNode.simplify]
  | htrue => simp [FNode.simplify]
  | hfalse => simp [FNode.simplify]
  | hnot e ih =>
    intro h
    have he : FNode.orFree e = true := by simpa [FNode.orFree] using h
    rw [simplify_notE]
    cases hs : FNode.simplify e with
    | trueE => simp [FNode.orFree]
    | falseE => simp [FNode.orFree]
    | atom s => simp [FNode.orFree]
    | notE e2 =>
      have := ih he
      rw [hs] at this
      simpa [FNode.orFree] using this
    | andE l2 =>
      have := ih he
      rw [hs] at this
      simpa [FNode.orFree] using this
    | orE l2 =>
      have := ih he
      rw [hs] at this
      simp [FNode.orFree] at this
  | hand l ih =>
    intro h
    have hall : ∀ y ∈ l, FNode.orFree y = true := by
      have h2 : FNode.orFreeList l = true := by simpa [FNode.orFree] using h
      rw [orFreeList_eq] at h2
      exact fun y hy => (List.all_eq_true.mp h2) y hy
    rw [simplify_andE]
    by_cases h1 : (l.map FNode.simplify).any FNode.is_false = true
    · simp [h1, FNode.orFree]
    · rw [if_neg h1]
      cases h2 : (l.map FNode.simplify).filter (fun e => !e.is_true) with
      | nil => simp [FNode.orFree]
      | cons x xs =>
        cases xs with
        | nil =>
          have hx : x ∈ (l.map FNode.simplify).filter (fun e => !e.is_true) := by
            rw [h2]; exact List.mem_singleton_self x
          obtain ⟨y, hy, rfl⟩ := List.mem_map.mp (List.mem_of_mem_filter hx)
          exact ih y hy (hall y hy)
        | cons x2 xs2 =>
          have hsub : ∀ z ∈ x :: x2 :: xs2, FNode.orFree z = true := by
            intro z hz
            have hzf : z ∈ (l.map FNode.simplify).filter (fun e => !e.is_true) := by
              rw [h2]; exact hz
            obtain ⟨y, hy, rfl⟩ := List.mem_map.mp (List.mem_of_mem_filter hzf)
            exact ih y hy (hall y hy)
          simp only [FNode.orFree, orFreeList_eq]
          exact List.all_eq_true.mpr hsub
  | hor l ih => simp [FNode.orFree]

/-! ## Properties of the DNF oracle -/

/-- Every literal of every clause produced by `dnfD` is OR-free. -/
theorem dnfD_clauses_orFree : ∀ (e : FNode) (b : Bool) (cl : List FNode) (x : FNode),
    cl ∈ dnfD b e → x ∈ cl → FNode.orFree x = true := by
  intro e
  induction e using FNode.inductOn with
  | hatom s =>
    intro b cl x hcl hx
    simp [dnfD] at hcl
    subst hcl
    simp at hx
    subst hx
    cases b <;> simp [FNode.orFree]
  | htrue =>
    intro b cl x hcl hx
    simp [dnfD] at hcl
    subst hcl
    simp at hx
    subst hx
    cases b <;> simp [FNode.orFree]
  | hfalse =>
    intro b cl x hcl hx
    simp [dnfD] at hcl
    subst hcl
    simp at hx
    subst hx
    cases b <;> simp [FNode.orFree]
  | hnot e ih =>
    intro b cl x hcl hx
    exact ih (!b) cl x (by simpa [dnfD] using hcl) hx
  | hand l ih =>
    intro b cl x hcl hx
    cases b with
    | true =>
      simp only [dnfD, if_true, dnfDList_eq] at hcl
      obtain ⟨cs, hcs, c, hc, hxc⟩ := prodLists_mem _ _ hcl x hx
      obtain ⟨y, hy, rfl⟩ := List.mem_map.mp hcs
      exact ih y hy true c x hc hxc
    | false =>
      simp only [dnfD, Bool.false_eq_true, if_false, dnfDList_eq] at hcl
      obtain ⟨cs, hcs, hclcs⟩ := joinLists_mem _ _ hcl
      obtain ⟨y, hy, rfl⟩ := List.mem_map.mp hcs
      exact ih y hy false cl x hclcs hx
  | hor l ih =>
    intro b cl x hcl hx
    cases b with
    | true =>
      simp only [dnfD, if_true, dnfDList_eq] at hcl
      obtain ⟨cs, hcs, hclcs⟩ := joinLists_mem _ _ hcl
      obtain ⟨y, hy, rfl⟩ := List.mem_map.mp hcs
      exact ih y hy true cl x hclcs hx
    | false =>
      simp only [dnfD, Bool.false_eq_true, if_false, dnfDList_eq] at hcl
      obtain ⟨cs, hcs, c, hc, hxc⟩ := prodLists_mem _ _ hcl x hx
      obtain ⟨y, hy, rfl⟩ := List.mem_map.mp hcs
      exact ih y hy false c x hc hxc

/-- Conjoining OR-free expressions is OR-free. -/
theorem mkAnd_orFree : ∀ cl : List FNode,
    (∀ x ∈ cl, FNode.orFree x = true) → FNode.orFree (mkAnd cl) = true := by
  intro cl h
  match cl with
  | [] => simp [mkAnd, FNode.orFree]
  | [x] => simpa [mkAnd] using h x (by simp)
  | x :: y :: rest =>
    show FNode.orFree (FNode.andE (x :: y :: rest)) = true
    simp only [FNode.orFree, orFreeList_eq]
    exact List.all_eq_true.mpr h

/-- When the DNF expression is an OR, each of its disjuncts is OR-free. -/
theorem dnfExpr_or_args_orFree (e : FNode) :
    (dnfExpr e).is_or = true → ∀ d ∈ (dnfExpr e).args, FNode.orFree d = true := by
  unfold dnfExpr
  cases hL : (dnfD true e).map mkAnd with
  | nil => simp [mkOr, FNode.is_or]
  | cons a rest =>
    cases rest with
    | nil =>
      intro hor d hd
      have ha : a ∈ (dnfD true e).map mkAnd := by rw [hL]; simp
      obtain ⟨cl, hcl, rfl⟩ := List.mem_map.mp ha
      have haf : FNode.orFree (mkAnd cl) = true :=
        mkAnd_orFree cl (fun x hx => dnfD_clauses_orFree e true cl x hcl hx)
      rw [show mkOr [mkAnd cl] = mkAnd cl from rfl] at hor
      rw [orFree_not_is_or _ haf] at hor
      cases hor
    | cons b rest2 =>
      intro _ d hd
      have hd2 : d ∈ (dnfD true e).map mkAnd := by
        rw [hL]
        have : (mkOr (a :: b :: rest2)).args = a :: b :: rest2 := rfl
        rw [show mkOr (a :: b :: rest2) = FNode.orE (a :: b :: rest2) from rfl] at hd
        simpa [FNode.args] using hd
      obtain ⟨cl, hcl, rfl⟩ := List.mem_map.mp hd2
      exact mkAnd_orFree cl (fun x hx => dnfD_clauses_orFree e true cl x hcl hx)

/-- When the DNF expression is not an OR, it is OR-free as a whole. -/
theorem dnfExpr_notOr_orFree (e : FNode) :
    (dnfExpr e).is_or = false → FNode.orFree (dnfExpr e) = true := by
  unfold dnfExpr
  cases hL : (dnfD true e).map mkAnd with
  | nil => intro _; simp [mkOr, FNode.orFree]
  | cons a rest =>
    cases rest with
    | nil =>
      intro _
      have ha : a ∈ (dnfD true e).map mkAnd := by rw [hL]; simp
      obtain ⟨cl, hcl, rfl⟩ := List.mem_map.mp ha
      exact mkAnd_orFree cl (fun x hx => dnfD_clauses_orFree e true cl x hcl hx)
    | cons b rest2 =>
      intro hor
      rw [show mkOr (a :: b :: rest2) = FNode.orE (a :: b :: rest2) from rfl] at hor
      simp [FNode.is_or] at hor

/-! ## C4: effect rebuilding, spec wording vs code -/

namespace DisjunctiveConditionsRemover

/-- Follows the spec's words for the effect-rebuild step (C4), to be compared
with the source-derived `rebuildEffect`: copy an unconditional effect
unchanged; normalize a conditional guard to DNF and simplify; if the result
is OR, emit one effect copy per guard-disjunct with that disjunct as the new
guard, dropping disjuncts that simplify to FALSE; if the non-OR result is
FALSE drop the effect entirely; otherwise copy the effect with the
simplified guard. -/
def specRebuildEffect (e : Effect) : List Effect :=
  if e.is_conditional then
    let g := (dnfExpr e.condition).simplify
    if g.is_or then
      (g.args.filter (fun d => !(FNode.simplify d).is_false)).map
        (fun d => e.set_condition d)
    else if g.is_false then []
    else [e.set_condition g]
  else [e]

/-- The code's effect rebuilding agrees with the spec's wording. -/
theorem rebuildEffect_eq_spec : ∀ e : Effect, rebuildEffect e = specRebuildEffect e := by
  intro e
  by_cases hc : e.is_conditional
  · by_cases ho : ((dnfExpr e.condition).simplify).is_or = true
    · have hargs :
          ((dnfExpr e.condition).simplify).args.filter
            (fun d => !(FNode.simplify d).is_false) =
          ((dnfExpr e.condition).simplify).args := by
        refine filter_all_true _ _ (fun d hd => ?_)
        obtain ⟨hidem, hnf⟩ := simplify_or_args (dnfExpr e.condition) ho d hd
        rw [hidem, hnf]
        rfl
      simp only [rebuildEffect, specRebuildEffect, hc, ho, if_true, hargs]
    · by_cases hf : ((dnfExpr e.condition).simplify).is_false = true
      · simp [rebuildEffect, specRebuildEffect, hc, ho, hf]
      · simp [rebuildEffect, specRebuildEffect, hc, ho, hf]
  · simp [rebuildEffect, specRebuildEffect, hc]

/-- The two function symbols are equal outright. -/
theorem rebuildEffect_funext : rebuildEffect = specRebuildEffect :=
  funext rebuildEffect_eq_spec

end DisjunctiveConditionsRemover

/-- C4: when rebuilding a variant's effects, each unconditional effect is
copied unchanged and each conditional effect is split per simplified DNF
guard-disjunct exactly as the spec words it (FALSE disjuncts dropped, FALSE
guards dropping the effect); the instantaneous splitter's surviving variant
carries exactly this rebuilt list, and the durative splitter applies the
same rebuild per timing (timings with no surviving effect disappear). -/
theorem claim_C4 :
    (∀ e : Effect,
      DisjunctiveConditionsRemover.rebuildEffect e =
      DisjunctiveConditionsRemover.specRebuildEffect e) ∧
    (∀ (np : Problem) (pre : FNode) (a : InstantaneousAction) (na : InstantaneousAction),
      DisjunctiveConditionsRemover._create_new_action_with_given_precond np pre a = some na →
      na.effects = a.effects.flatMap DisjunctiveConditionsRemover.specRebuildEffect) ∧
    (∀ (np : Problem) (il : List Nat) (cl : List FNode)
        (da : DurativeAction) (nda : DurativeAction),
      DisjunctiveConditionsRemover._create_new_durative_action_with_given_conds_at_given_times
        np il cl da = some nda →
      nda.effects =
        (da.effects.map
          (fun te => (te.1, te.2.flatMap DisjunctiveConditionsRemover.specRebuildEffect))).filter
          (fun te => !te.2.isEmpty)) := by
  refine ⟨DisjunctiveConditionsRemover.rebuildEffect_eq_spec, ?_, ?_⟩
  · intro np pre a na h
    simp only [DisjunctiveConditionsRemover._create_new_action_with_given_precond] at h
    split at h
    · exact absurd h (by simp)
    · split at h
      · exact absurd h (by simp)
      · obtain rfl := (Option.some.injEq _ _).mp h
        simp only [DisjunctiveConditionsRemover.rebuildEffect_funext]
  · intro np il cl da nda h
    simp only
      [DisjunctiveConditionsRemover._create_new_durative_action_with_given_conds_at_given_times] at h
    split at h
    · exact absurd h (by simp)
    · split at h
      · exact absurd h (by simp)
      · obtain rfl := (Option.some.injEq _ _).mp h
        simp only [DisjunctiveConditionsRemover.rebuildEffect_funext]

/-- A durative action used to exercise the C4 witness. -/
def plainDur : DurativeAction :=
  ⟨"dd", [(0, [.atom "a"])], [(0, [⟨.atom "d", .trueE, .trueE⟩])]⟩

/-- Witness for C4: both splitter hypotheses discharged at concrete inputs
that produce a surviving variant. -/
theorem claim_C4_witness :
    ([⟨FNode.atom "d", FNode.trueE, FNode.trueE⟩] : List Effect) =
      [(⟨FNode.atom "d", FNode.trueE, FNode.trueE⟩ : Effect)].flatMap
        DisjunctiveConditionsRemover.specRebuildEffect ∧
    ([(0, [⟨FNode.atom "d", FNode.trueE, FNode.trueE⟩])] :
        List (Nat × List Effect)) =
      ([(0, [(⟨FNode.atom "d", FNode.trueE, FNode.trueE⟩ : Effect)])].map
        (fun te => (te.1, te.2.flatMap DisjunctiveConditionsRemover.specRebuildEffect))).filter
        (fun te => !te.2.isEmpty) :=
  ⟨claim_C4.2.1 scenarioC2 (FNode.atom "c")
      ⟨"act", [.orE [.andE [.atom "a", .atom "b"], .atom "c"]],
        [⟨.atom "d", .trueE, .trueE⟩]⟩
      ⟨"act_0", [.atom "c"], [⟨.atom "d", .trueE, .trueE⟩]⟩ (by decide),
   claim_C4.2.2 scenarioC2 [0] [FNode.atom "a"] plainDur
      ⟨"dd", [(0, [.atom "a"])], [(0, [⟨.atom "d", .trueE, .trueE⟩])]⟩ (by decide)⟩

/-! ## C1: OR-free conditions in every compiled action -/

/-- No precondition (instantaneous) / per-interval condition (durative) of
the action has OR as its top-level form. -/
def UAction.condsOrFree : UAction → Bool
  | .instA a => a.preconditions.all (fun pre => !pre.is_or)
  | .durA a => a.conditions.all (fun icl => icl.2.all (fun c => !c.is_or))

theorem is_and_exists : ∀ e : FNode, e.is_and = true → ∃ l, e = FNode.andE l := by
  intro e h
  cases e <;> simp [FNode.is_and] at h ⊢

/-- A variant built from an OR-free disjunct has OR-free preconditions. -/
theorem createIA_orFree (np : Problem) (pre : FNode) (a na : InstantaneousAction) :
    FNode.orFree pre = true →
    DisjunctiveConditionsRemover._create_new_action_with_given_precond np pre a = some na →
    UAction.condsOrFree (.instA na) = true := by
  intro hfree h
  have hs : FNode.orFree (FNode.simplify pre) = true := orFree_simplify pre hfree
  simp only [DisjunctiveConditionsRemover._create_new_action_with_given_precond] at h
  split at h
  · exact absurd h (by simp)
  · split at h
    · exact absurd h (by simp)
    · obtain rfl := (Option.some.injEq _ _).mp h
      simp only [UAction.condsOrFree, List.all_eq_true]
      intro x hx
      by_cases ha : (FNode.simplify pre).is_and = true
      · rw [if_pos ha] at hx
        obtain ⟨l2, hl2⟩ := is_and_exists _ ha
        rw [hl2] at hx hs
        have : FNode.orFreeList l2 = true := by simpa [FNode.orFree] using hs
        rw [orFreeList_eq] at this
        have hxf := List.all_eq_true.mp this x (by simpa [FNode.args] using hx)
        simp [orFree_not_is_or x hxf]
      · rw [if_neg ha] at hx
        simp only [List.mem_singleton] at hx
        subst hx
        simp [orFree_not_is_or _ hs]

/-- Values of the keyed map after `addToKeyed` either were present before or
are the added value. -/
theorem addToKeyed_values {κ α : Type} [DecidableEq κ] :
    ∀ (m : List (κ × List α)) (k : κ) (v : α) (q : κ × List α) (x : α),
      q ∈ addToKeyed m k v → x ∈ q.2 → (∃ r ∈ m, x ∈ r.2) ∨ x = v := by
  intro m
  induction m with
  | nil =>
    intro k v q x hq hx
    simp [addToKeyed] at hq
    subst hq
    simp at hx
    exact Or.inr hx
  | cons hd tl ih =>
    intro k v q x hq hx
    obtain ⟨k', vs⟩ := hd
    by_cases hk : k = k'
    · simp only [addToKeyed, if_pos hk] at hq
      rcases List.mem_cons.mp hq with rfl | hmem
      · rcases List.mem_append.mp hx with hl | hr
        · exact Or.inl ⟨(k', vs), by simp, hl⟩
        · simp at hr; exact Or.inr hr
      · exact Or.inl ⟨q, by simp [hmem], hx⟩
    · simp only [addToKeyed, if_neg hk] at hq
      rcases List.mem_cons.mp hq with rfl | hmem
      · exact Or.inl ⟨(k', vs), by simp, hx⟩
      · rcases ih k v q x hmem hx with ⟨r, hr, hxr⟩ | hv
        · exact Or.inl ⟨r, by simp [hr], hxr⟩
        · exact Or.inr hv


/-- `addConds` only stores OR-free conditions when fed OR-free disjuncts. -/
theorem addConds_orFree :
    ∀ (l : List (Nat × FNode)) (acc : List (Nat × List FNode))
      (conds : List (Nat × List FNode)),
      (∀ p ∈ l, FNode.orFree p.2 = true) →
      (∀ q ∈ acc, ∀ c ∈ q.2, c.is_or = false) →
      DisjunctiveConditionsRemover.addConds l acc = some conds →
      ∀ q ∈ conds, ∀ c ∈ q.2, c.is_or = false := by
  intro l
  induction l with
  | nil =>
    intro acc conds _ hacc h
    simp [DisjunctiveConditionsRemover.addConds] at h
    subst h
    exact hacc
  | cons hd tl ih =>
    intro acc conds hl hacc h
    obtain ⟨i, c⟩ := hd
    have hcfree : FNode.orFree (FNode.simplify c) = true :=
      orFree_simplify c (hl (i, c) (by simp))
    have hltl : ∀ p ∈ tl, FNode.orFree p.2 = true :=
      fun p hp => hl p (List.mem_cons_of_mem _ hp)
    by_cases hf : (FNode.simplify c).is_false = true
    · rw [DisjunctiveConditionsRemover.addConds_none ((i, c) :: tl) acc
        ⟨(i, c), by simp, hf⟩] at h
      exact absurd h (by simp)
    · by_cases ha : (FNode.simplify c).is_and = true
      · simp only [DisjunctiveConditionsRemover.addConds, hf, ha,
          Bool.false_eq_true, if_false, if_true] at h
        refine ih _ conds hltl ?_ h
        obtain ⟨l2, hl2⟩ := is_and_exists _ ha
        have hargsfree : ∀ x ∈ (FNode.simplify c).args, x.is_or = false := by
          intro x hx
          rw [hl2] at hcfree hx
          have : FNode.orFreeList l2 = true := by simpa [FNode.orFree] using hcfree
          rw [orFreeList_eq] at this
          exact orFree_not_is_or x
            (List.all_eq_true.mp this x (by simpa [FNode.args] using hx))
        have inv := foldl_inv
          (fun (m : List (Nat × List FNode)) => ∀ q ∈ m, ∀ d ∈ q.2, d.is_or = false)
          (fun m co => addToKeyed m i co)
          (FNode.simplify c).args
          (fun m b hb hm q hq d hd => by
            rcases addToKeyed_values m i b q d hq hd with ⟨r, hr, hdr⟩ | rfl
            · exact hm r hr d hdr
            · exact hargsfree d hb)
          acc hacc
        exact inv
      · simp only [DisjunctiveConditionsRemover.addConds, hf, ha,
          Bool.false_eq_true, if_false] at h
        refine ih _ conds hltl ?_ h
        intro q hq d hd
        rcases addToKeyed_values acc i (FNode.simplify c) q d hq hd with ⟨r, hr, hdr⟩ | rfl
        · exact hacc r hr d hdr
        · exact orFree_not_is_or _ hcfree

/-- A durative variant built from OR-free chosen disjuncts has OR-free
per-interval conditions. -/
theorem createDA_orFree (np : Problem) (il : List Nat) (cl : List FNode)
    (da nda : DurativeAction) :
    (∀ c ∈ cl, FNode.orFree c = true) →
    DisjunctiveConditionsRemover._create_new_durative_action_with_given_conds_at_given_times
      np il cl da = some nda →
    UAction.condsOrFree (.durA nda) = true := by
  intro hfree h
  simp only
    [DisjunctiveConditionsRemover._create_new_durative_action_with_given_conds_at_given_times] at h
  cases hac : DisjunctiveConditionsRemover.addConds (il.zip cl) [] with
  | none => rw [hac] at h; simp at h
  | some conds =>
    rw [hac] at h
    split at h
    · simp at h
    · rename_i conds2 heq
      obtain rfl : conds = conds2 := (Option.some.injEq _ _).mp heq
      split at h
      · simp at h
      · obtain rfl := (Option.some.injEq _ _).mp h
        have hzip : ∀ p ∈ il.zip cl, FNode.orFree p.2 = true := by
          intro p hp
          exact hfree p.2 (List.of_mem_zip hp).2
        have hconds := addConds_orFree (il.zip cl) [] conds hzip (by simp) hac
        simp only [UAction.condsOrFree, List.all_eq_true]
        intro q hq c hc
        simp [hconds q hq c hc]

/-- The instantaneous branch of the action loop preserves OR-freedom of all
actions in the problem. -/
theorem iaBranch_inv (st : Problem × List (String × Option String))
    (ia : InstantaneousAction)
    (hinv : ∀ a ∈ st.1.actions, a.condsOrFree = true) :
    ∀ a ∈ (DisjunctiveConditionsRemover.iaBranch st ia).1.actions, a.condsOrFree = true := by
  unfold DisjunctiveConditionsRemover.iaBranch
  by_cases ho : (dnfExpr (mkAnd ia.preconditions)).is_or = true
  · rw [if_pos ho]
    refine foldl_inv (fun st2 => ∀ a ∈ st2.1.actions, a.condsOrFree = true) _ _
      ?_ st hinv
    intro st2 b hb hinv2
    cases hna : DisjunctiveConditionsRemover._create_new_action_with_given_precond
        st2.1 b ia with
    | none => exact hinv2
    | some na =>
      intro a ha
      have ha2 : a ∈ (st2.1.add_action (UAction.instA na)).actions := ha
      simp only [Problem.add_action] at ha2
      rcases List.mem_append.mp ha2 with hold | hnew
      · exact hinv2 a hold
      · simp only [List.mem_singleton] at hnew
        subst hnew
        exact createIA_orFree _ b ia na (dnfExpr_or_args_orFree _ ho b hb) hna
  · rw [if_neg ho]
    have hfree : FNode.orFree (dnfExpr (mkAnd ia.preconditions)) = true :=
      dnfExpr_notOr_orFree _ (by simpa using ho)
    cases hna : DisjunctiveConditionsRemover._create_new_action_with_given_precond
        st.1 (dnfExpr (mkAnd ia.preconditions)) ia with
    | none => exact hinv
    | some na =>
      intro a ha
      have ha2 : a ∈ (st.1.add_action (UAction.instA na)).actions := ha
      simp only [Problem.add_action] at ha2
      rcases List.mem_append.mp ha2 with hold | hnew
      · exact hinv a hold
      · simp only [List.mem_singleton] at hnew
        subst hnew
        exact createIA_orFree _ _ ia na hfree hna

/-- The durative branch of the action loop preserves OR-freedom of all
actions in the problem. -/
theorem daBranch_inv (st : Problem × List (String × Option String))
    (da : DurativeAction)
    (hinv : ∀ a ∈ st.1.actions, a.condsOrFree = true) :
    ∀ a ∈ (DisjunctiveConditionsRemover.daBranch st da).1.actions, a.condsOrFree = true := by
  unfold DisjunctiveConditionsRemover.daBranch
  refine foldl_inv (fun st2 => ∀ a ∈ st2.1.actions, a.condsOrFree = true) _ _
    ?_ st hinv
  intro st2 cond_list hcl hinv2
  have hclfree : ∀ c ∈ cond_list, FNode.orFree c = true := by
    intro c hc
    obtain ⟨xs, hxs, hcxs⟩ := prodL_mem _ cond_list hcl c hc
    obtain ⟨icl, hicl, rfl⟩ := List.mem_map.mp hxs
    by_cases ho : (dnfExpr (mkAnd icl.2)).is_or = true
    · rw [if_pos ho] at hcxs
      exact dnfExpr_or_args_orFree _ ho c hcxs
    · rw [if_neg ho] at hcxs
      simp only [List.mem_singleton] at hcxs
      subst hcxs
      exact dnfExpr_notOr_orFree _ (by simpa using ho)
  cases hna : DisjunctiveConditionsRemover._create_new_durative_action_with_given_conds_at_given_times
      st2.1 (da.conditions.map (fun icl => icl.1)) cond_list da with
  | none => exact hinv2
  | some nda =>
    intro a ha
    have ha2 : a ∈ (st2.1.add_action (UAction.durA nda)).actions := ha
    simp only [Problem.add_action] at ha2
    rcases List.mem_append.mp ha2 with hold | hnew
    · exact hinv2 a hold
    · simp only [List.mem_singleton] at hnew
      subst hnew
      exact createDA_orFree _ _ cond_list da nda hclfree hna

/-- Goal elimination preserves OR-freedom of all actions in the problem
(every witness variant it adds is itself built from an OR-free disjunct). -/
theorem goalElim_inv (np : Problem) (m : List (String × Option String))
    (fl : List Fluent) (goals : List FNode) (timing : Option Nat)
    (hinv : ∀ a ∈ np.actions, a.condsOrFree = true) :
    ∀ a ∈ (DisjunctiveConditionsRemover._remove_disjunctions_from_goals_adding_new_elements
        np m fl goals timing).1.actions, a.condsOrFree = true := by
  unfold DisjunctiveConditionsRemover._remove_disjunctions_from_goals_adding_new_elements
  by_cases ho : (dnfExpr (mkAnd goals)).is_or = true
  · rw [if_pos ho]
    have hfold : ∀ a ∈ ((dnfExpr (mkAnd goals)).args.foldl
        (fun (st : Problem × List (String × Option String)) and_exp =>
          match DisjunctiveConditionsRemover._create_new_action_with_given_precond
              st.1 and_exp (DisjunctiveConditionsRemover.goalFakeAction np timing) with
          | some na => (st.1.add_action (.instA na), st.2 ++ [(na.name, none)])
          | none => st)
        (np, m)).1.actions, a.condsOrFree = true := by
      refine foldl_inv (fun st2 => ∀ a ∈ st2.1.actions, a.condsOrFree = true) _ _
        ?_ (np, m) hinv
      intro st2 b hb hinv2
      cases hna : DisjunctiveConditionsRemover._create_new_action_with_given_precond
          st2.1 b (DisjunctiveConditionsRemover.goalFakeAction np timing) with
      | none => exact hinv2
      | some na =>
        intro a ha
        have ha2 : a ∈ (st2.1.add_action (UAction.instA na)).actions := ha
        simp only [Problem.add_action] at ha2
        rcases List.mem_append.mp ha2 with hold | hnew
        · exact hinv2 a hold
        · simp only [List.mem_singleton] at hnew
          subst hnew
          exact createIA_orFree _ b _ na (dnfExpr_or_args_orFree _ ho b hb) hna
    cases timing with
    | none =>
      simpa [Problem.add_fluent, Problem.add_goal] using hfold
    | some t =>
      simpa [Problem.add_fluent, Problem.add_timed_goal] using hfold
  · rw [if_neg ho]
    cases timing with
    | none => simpa [Problem.add_goal] using hinv
    | some t => simpa [Problem.add_timed_goal] using hinv

/-- Reset injection does not touch preconditions or durative conditions. -/
theorem addResets_condsOrFree (eff : List Effect) (a : UAction) :
    (DisjunctiveConditionsRemover.addResets eff a).condsOrFree = a.condsOrFree := by
  cases a <;> simp [DisjunctiveConditionsRemover.addResets, UAction.condsOrFree]

/-- C1: in the compiled problem, no precondition of an InstantaneousAction
and no per-interval condition of a DurativeAction has OR as its top-level
form — each added precondition/condition is either a flattened conjunct of
the simplified disjunct or the single simplified non-AND disjunct. -/
theorem claim_C1 (p : Problem) :
    ∀ a ∈ (DisjunctiveConditionsRemover._compile p).problem.actions,
      a.condsOrFree = true := by
  have h1 : ∀ a ∈ (DisjunctiveConditionsRemover.actionsStage p).1.actions,
      a.condsOrFree = true := by
    unfold DisjunctiveConditionsRemover.actionsStage
    refine foldl_inv
      (fun (st : Problem × List (String × Option String)) =>
        ∀ a ∈ st.1.actions, a.condsOrFree = true) _
      p.actions ?_ _ ?_
    · intro st b _ hinv
      cases b with
      | instA ia => exact iaBranch_inv st ia hinv
      | durA da => exact daBranch_inv st da hinv
    · intro a ha
      simp at ha
  have h3 : ∀ a ∈ (DisjunctiveConditionsRemover.goalsStage p
      (DisjunctiveConditionsRemover.actionsStage p)).1.actions, a.condsOrFree = true := by
    unfold DisjunctiveConditionsRemover.goalsStage
    refine foldl_inv
      (fun (st : Problem × List (String × Option String) × List Fluent) =>
        ∀ a ∈ st.1.actions, a.condsOrFree = true) _
      p.timedGoals ?_ _ ?_
    · intro st tg _ hinv
      exact goalElim_inv st.1 st.2.1 st.2.2 tg.2 (some tg.1) hinv
    · exact goalElim_inv _ _ _ _ none h1
  intro a ha
  have hchar : (DisjunctiveConditionsRemover._compile p).problem.actions =
      ((DisjunctiveConditionsRemover.goalsStage p
          (DisjunctiveConditionsRemover.actionsStage p)).1.actions.take
        (DisjunctiveConditionsRemover.actionsStage p).1.actions.length).map
        (DisjunctiveConditionsRemover.addResets
          (DisjunctiveConditionsRemover.resetEffects
            (DisjunctiveConditionsRemover.goalsStage p
              (DisjunctiveConditionsRemover.actionsStage p)).2.2)) ++
      (DisjunctiveConditionsRemover.goalsStage p
          (DisjunctiveConditionsRemover.actionsStage p)).1.actions.drop
        (DisjunctiveConditionsRemover.actionsStage p).1.actions.length := rfl
  rw [hchar] at ha
  rcases List.mem_append.mp ha with hl | hr
  · obtain ⟨b, hb, rfl⟩ := List.mem_map.mp hl
    rw [addResets_condsOrFree]
    exact h3 b (List.take_subset _ _ hb)
  · exact h3 a (List.drop_subset _ _ hr)

/-- Witness for C1: the membership hypothesis discharged on a concrete
compiled action of the C2 scenario. -/
theorem claim_C1_witness :
    UAction.condsOrFree
      (.instA ⟨"act", [.atom "a", .atom "b"], [⟨.atom "d", .trueE, .trueE⟩]⟩) = true :=
  claim_C1 scenarioC2
    (.instA ⟨"act", [.atom "a", .atom "b"], [⟨.atom "d", .trueE, .trueE⟩]⟩)
    (by decide)

/-! ## C6: totality of the translation map -/

/-- A key that appears in an association list is found by `lookup`. -/
theorem lookup_isSome_of_mem :
    ∀ (m : List (String × Option String)) (k : String) (v : Option String),
      (k, v) ∈ m → (m.lookup k).isSome = true := by
  intro m k v
  induction m with
  | nil => intro h; simp at h
  | cons hd tl ih =>
    intro h
    obtain ⟨k', v'⟩ := hd
    by_cases hk : k = k'
    · subst hk
      simp [List.lookup]
    · have hbeq : (k == k') = false := by
        simp [hk]
      simp only [List.lookup, hbeq]
      rcases List.mem_cons.mp h with heq | hmem
      · exact absurd (congrArg Prod.fst heq) hk
      · exact ih hmem

/-- Invariant tying problem actions to the translation map: every action
present has an entry under its name, and every entry's value is none or the
name of a source action. -/
def mapInv (p : Problem) (st : Problem × List (String × Option String)) : Prop :=
  (∀ a ∈ st.1.actions, ∃ v, (a.name, v) ∈ st.2) ∧
  (∀ kv ∈ st.2, kv.2 = none ∨ ∃ oa ∈ p.actions, kv.2 = some oa.name)

/-- Adding an action together with its map entry preserves `mapInv`. -/
theorem mapInv_step (p : Problem) (st : Problem × List (String × Option String))
    (A : UAction) (v : Option String)
    (hv : v = none ∨ ∃ oa ∈ p.actions, v = some oa.name)
    (hinv : mapInv p st) :
    mapInv p (st.1.add_action A, st.2 ++ [(A.name, v)]) := by
  constructor
  · intro a ha
    simp only [Problem.add_action] at ha
    rcases List.mem_append.mp ha with hold | hnew
    · obtain ⟨v', hv'⟩ := hinv.1 a hold
      exact ⟨v', List.mem_append_left _ hv'⟩
    · simp only [List.mem_singleton] at hnew
      subst hnew
      exact ⟨v, List.mem_append_right _ (by simp)⟩
  · intro kv hkv
    rcases List.mem_append.mp hkv with hold | hnew
    · exact hinv.2 kv hold
    · simp only [List.mem_singleton] at hnew
      subst hnew
      exact hv

/-- The instantaneous branch preserves `mapInv` when the original action is
a source action. -/
theorem iaBranch_map_inv (p : Problem) (st : Problem × List (String × Option String))
    (ia : InstantaneousAction) (hia : UAction.instA ia ∈ p.actions)
    (hinv : mapInv p st) :
    mapInv p (DisjunctiveConditionsRemover.iaBranch st ia) := by
  have hv : (some ia.name : Option String) = none ∨
      ∃ oa ∈ p.actions, (some ia.name : Option String) = some oa.name :=
    Or.inr ⟨.instA ia, hia, rfl⟩
  unfold DisjunctiveConditionsRemover.iaBranch
  by_cases ho : (dnfExpr (mkAnd ia.preconditions)).is_or = true
  · rw [if_pos ho]
    refine foldl_inv (mapInv p) _ _ ?_ st hinv
    intro st2 b _ hinv2
    cases hna : DisjunctiveConditionsRemover._create_new_action_with_given_precond
        st2.1 b ia with
    | none => exact hinv2
    | some na => exact mapInv_step p st2 (.instA na) (some ia.name) hv hinv2
  · rw [if_neg ho]
    cases hna : DisjunctiveConditionsRemover._create_new_action_with_given_precond
        st.1 (dnfExpr (mkAnd ia.preconditions)) ia with
    | none => exact hinv
    | some na => exact mapInv_step p st (.instA na) (some ia.name) hv hinv

/-- The durative branch preserves `mapInv` when the original action is a
source action. -/
theorem daBranch_map_inv (p : Problem) (st : Problem × List (String × Option String))
    (da : DurativeAction) (hda : UAction.durA da ∈ p.actions)
    (hinv : mapInv p st) :
    mapInv p (DisjunctiveConditionsRemover.daBranch st da) := by
  have hv : (some da.name : Option String) = none ∨
      ∃ oa ∈ p.actions, (some da.name : Option String) = some oa.name :=
    Or.inr ⟨.durA da, hda, rfl⟩
  unfold DisjunctiveConditionsRemover.daBranch
  refine foldl_inv (mapInv p) _ _ ?_ st hinv
  intro st2 cond_list _ hinv2
  cases hna : DisjunctiveConditionsRemover._create_new_durative_action_with_given_conds_at_given_times
      st2.1 (da.conditions.map (fun icl => icl.1)) cond_list da with
  | none => exact hinv2
  | some nda => exact mapInv_step p st2 (.durA nda) (some da.name) hv hinv2

/-- Goal elimination preserves `mapInv` (witness actions map to none). -/
theorem goalElim_map_inv (p : Problem) (np : Problem)
    (m : List (String × Option String)) (fl : List Fluent)
    (goals : List FNode) (timing : Option Nat)
    (hinv : mapInv p (np, m)) :
    mapInv p
      ((DisjunctiveConditionsRemover._remove_disjunctions_from_goals_adding_new_elements
          np m fl goals timing).1,
       (DisjunctiveConditionsRemover._remove_disjunctions_from_goals_adding_new_elements
          np m fl goals timing).2.1) := by
  unfold DisjunctiveConditionsRemover._remove_disjunctions_from_goals_adding_new_elements
  by_cases ho : (dnfExpr (mkAnd goals)).is_or = true
  · rw [if_pos ho]
    have hfold : mapInv p ((dnfExpr (mkAnd goals)).args.foldl
        (fun (st : Problem × List (String × Option String)) and_exp =>
          match DisjunctiveConditionsRemover._create_new_action_with_given_precond
              st.1 and_exp (DisjunctiveConditionsRemover.goalFakeAction np timing) with
          | some na => (st.1.add_action (.instA na), st.2 ++ [(na.name, none)])
          | none => st)
        (np, m)) := by
      refine foldl_inv (mapInv p) _ _ ?_ (np, m) hinv
      intro st2 b _ hinv2
      cases hna : DisjunctiveConditionsRemover._create_new_action_with_given_precond
          st2.1 b (DisjunctiveConditionsRemover.goalFakeAction np timing) with
      | none => exact hinv2
      | some na => exact mapInv_step p st2 (.instA na) none (Or.inl rfl) hinv2
    cases timing with
    | none =>
      constructor
      · intro a ha
        refine hfold.1 a ?_
        simpa [Problem.add_fluent, Problem.add_goal] using ha
      · intro kv hkv
        exact hfold.2 kv hkv
    | some t =>
      constructor
      · intro a ha
        refine hfold.1 a ?_
        simpa [Problem.add_fluent, Problem.add_timed_goal] using ha
      · intro kv hkv
        exact hfold.2 kv hkv
  · rw [if_neg ho]
    cases timing with
    | none =>
      constructor
      · intro a ha
        refine hinv.1 a ?_
        simpa [Problem.add_goal] using ha
      · exact hinv.2
    | some t =>
      constructor
      · intro a ha
        refine hinv.1 a ?_
        simpa [Problem.add_timed_goal] using ha
      · exact hinv.2

/-- Reset injection does not change an action's name. -/
theorem addResets_name (eff : List Effect) (a : UAction) :
    (DisjunctiveConditionsRemover.addResets eff a).name = a.name := by
  cases a <;> simp [DisjunctiveConditionsRemover.addResets, UAction.name]

/-- C6: the translation map is total over the actions of the final compiled
problem (every final action's name has an entry, found by lookup), and every
entry maps to none (witness actions) or to the name of an action of the
source problem; reset injection preserves the keys since it preserves
names. -/
theorem claim_C6 (p : Problem) :
    (∀ a ∈ (DisjunctiveConditionsRemover._compile p).problem.actions,
      (((DisjunctiveConditionsRemover._compile p).map).lookup a.name).isSome = true) ∧
    (∀ kv ∈ (DisjunctiveConditionsRemover._compile p).map,
      kv.2 = none ∨ ∃ oa ∈ p.actions, kv.2 = some oa.name) := by
  have h1 : mapInv p (DisjunctiveConditionsRemover.actionsStage p) := by
    unfold DisjunctiveConditionsRemover.actionsStage
    refine foldl_inv (mapInv p) _ p.actions ?_ _ ?_
    · intro st b hb hinv
      cases b with
      | instA ia => exact iaBranch_map_inv p st ia hb hinv
      | durA da => exact daBranch_map_inv p st da hb hinv
    · constructor
      · intro a ha; simp at ha
      · intro kv hkv; simp at hkv
  have h3 : mapInv p ((DisjunctiveConditionsRemover.goalsStage p
        (DisjunctiveConditionsRemover.actionsStage p)).1,
      (DisjunctiveConditionsRemover.goalsStage p
        (DisjunctiveConditionsRemover.actionsStage p)).2.1) := by
    unfold DisjunctiveConditionsRemover.goalsStage
    refine foldl_inv
      (fun (st : Problem × List (String × Option String) × List Fluent) =>
        mapInv p (st.1, st.2.1)) _
      p.timedGoals ?_ _ ?_
    · intro st tg _ hinv
      exact goalElim_map_inv p st.1 st.2.1 st.2.2 tg.2 (some tg.1) hinv
    · exact goalElim_map_inv p _ _ _ _ none h1
  have hmap : (DisjunctiveConditionsRemover._compile p).map =
      (DisjunctiveConditionsRemover.goalsStage p
        (DisjunctiveConditionsRemover.actionsStage p)).2.1 := rfl
  have hchar : (DisjunctiveConditionsRemover._compile p).problem.actions =
      ((DisjunctiveConditionsRemover.goalsStage p
          (DisjunctiveConditionsRemover.actionsStage p)).1.actions.take
        (DisjunctiveConditionsRemover.actionsStage p).1.actions.length).map
        (DisjunctiveConditionsRemover.addResets
          (DisjunctiveConditionsRemover.resetEffects
            (DisjunctiveConditionsRemover.goalsStage p
              (DisjunctiveConditionsRemover.actionsStage p)).2.2)) ++
      (DisjunctiveConditionsRemover.goalsStage p
          (DisjunctiveConditionsRemover.actionsStage p)).1.actions.drop
        (DisjunctiveConditionsRemover.actionsStage p).1.actions.length := rfl
  constructor
  · intro a ha
    rw [hchar] at ha
    rw [hmap]
    rcases List.mem_append.mp ha with hl | hr
    · obtain ⟨b, hb, rfl⟩ := List.mem_map.mp hl
      rw [addResets_name]
      obtain ⟨v, hv⟩ := h3.1 b (List.take_subset _ _ hb)
      exact lookup_isSome_of_mem _ _ v hv
    · obtain ⟨v, hv⟩ := h3.1 a (List.drop_subset _ _ hr)
      exact lookup_isSome_of_mem _ _ v hv
  · intro kv hkv
    rw [hmap] at hkv
    exact h3.2 kv hkv

/-- Witness for C6: lookup succeeds for a concrete compiled action of the C3
scenario, and a concrete map entry has a valid value. -/
theorem claim_C6_witness :
    (((DisjunctiveConditionsRemover._compile scenarioC3).map).lookup "go").isSome = true ∧
    (((("dcrm_fake_action" : String), (none : Option String)).2 = none) ∨
      ∃ oa ∈ scenarioC3.actions,
        ((("dcrm_fake_action" : String), (none : Option String)).2 = some oa.name)) :=
  ⟨(claim_C6 scenarioC3).1
      (.instA ⟨"go", [.atom "p"],
        [⟨.atom "d", .trueE, .trueE⟩, ⟨.atom "dcrm_fake_goal", .falseE, .trueE⟩]⟩)
      (by decide),
   (claim_C6 scenarioC3).2 ("dcrm_fake_action", none) (by decide)⟩

/-! ## C7: the durative splitter follows the spec's cartesian-product design -/

namespace DisjunctiveConditionsRemover

/-- Follows the spec's words: the disjunct set of one interval's condition
list — conjoin, normalize to DNF, take the disjuncts (a singleton when the
result is not an OR). -/
def specDisjuncts (cl : List FNode) : List FNode :=
  let g := dnfExpr (mkAnd cl)
  if g.is_or then g.args else [g]

/-- Follows the spec's words: the cartesian product over all intervals'
disjunct sets, one (interval, chosen disjunct) pair per interval per
candidate combination, preserving interval order. -/
def specDaChoices (a : DurativeAction) : List (List (Nat × FNode)) :=
  prodL (a.conditions.map (fun icl => (specDisjuncts icl.2).map (fun d => (icl.1, d))))

/-- Follows the spec's words: build one candidate durative variant from a
combination — clone under a fresh name; if any chosen disjunct simplifies to
FALSE discard the whole combination; an AND disjunct contributes each
conjunct separately at its interval, any other disjunct is added as-is;
effects are rebuilt per timing as in the instantaneous case and a variant
with no surviving effect is discarded. -/
def specBuildDurVariant (np : Problem) (a : DurativeAction)
    (choice : List (Nat × FNode)) : Option DurativeAction :=
  let nm := get_fresh_name np a.name
  if choice.any (fun p => (FNode.simplify p.2).is_false) then none
  else
    let conds := choice.foldl
      (fun m p =>
        let c := FNode.simplify p.2
        if c.is_and then c.args.foldl (fun m2 co => addToKeyed m2 p.1 co) m
        else addToKeyed m p.1 c) []
    let newEff := (a.effects.map
      (fun te => (te.1, te.2.flatMap specRebuildEffect))).filter
      (fun te => !te.2.isEmpty)
    if newEff = [] then none
    else some ⟨nm, conds, newEff⟩

/-- When no chosen disjunct simplifies to FALSE, `addConds` succeeds and
returns exactly the per-pair fold of keyed insertions. -/
theorem addConds_some :
    ∀ (l : List (Nat × FNode)) (acc : List (Nat × List FNode)),
      (∀ p ∈ l, (FNode.simplify p.2).is_false = false) →
      addConds l acc = some (l.foldl
        (fun m p =>
          let c := FNode.simplify p.2
          if c.is_and then c.args.foldl (fun m2 co => addToKeyed m2 p.1 co) m
          else addToKeyed m p.1 c) acc) := by
  intro l
  induction l with
  | nil => intro acc _; rfl
  | cons hd tl ih =>
    intro acc h
    obtain ⟨i, c⟩ := hd
    have hf : (FNode.simplify c).is_false = false := h (i, c) (by simp)
    have htl : ∀ p ∈ tl, (FNode.simplify p.2).is_false = false :=
      fun p hp => h p (List.mem_cons_of_mem _ hp)
    by_cases ha : (FNode.simplify c).is_and = true
    · simp only [addConds, hf, ha, Bool.false_eq_true, if_false, if_true,
        List.foldl_cons]
      exact ih _ htl
    · simp only [addConds, hf, ha, Bool.false_eq_true, if_false,
        List.foldl_cons]
      exact ih _ htl

end DisjunctiveConditionsRemover

/-- Tagging each choice with its key commutes with the cartesian product:
choosing tagged elements equals zipping the key list with an untagged
choice. -/
theorem prodL_map_pair {α β κ : Type} (k : α → κ) (f : α → List β) :
    ∀ l : List α,
      prodL (l.map (fun x => (f x).map (fun y => (k x, y)))) =
        (prodL (l.map f)).map (fun ys => (l.map k).zip ys) := by
  intro l
  induction l with
  | nil => simp [prodL]
  | cons x xs ih =>
    simp only [List.map_cons, prodL, ih, List.map_flatMap, List.flatMap_map,
      List.map_map]
    apply congrArg
    funext y
    simp [List.map_map, Function.comp, List.zip_cons_cons]

/-- The code's candidate builder agrees with the spec's: building from the
separate interval and disjunct lists is building from the zipped choice. -/
theorem createDA_eq_specBuild (np : Problem) (il : List Nat) (cl : List FNode)
    (da : DurativeAction) :
    DisjunctiveConditionsRemover._create_new_durative_action_with_given_conds_at_given_times
      np il cl da =
    DisjunctiveConditionsRemover.specBuildDurVariant np da (il.zip cl) := by
  by_cases hf : (il.zip cl).any (fun p => (FNode.simplify p.2).is_false) = true
  · have hex : ∃ p ∈ il.zip cl, (FNode.simplify p.2).is_false = true := by
      simpa using List.any_eq_true.mp hf
    simp only
      [DisjunctiveConditionsRemover._create_new_durative_action_with_given_conds_at_given_times,
       DisjunctiveConditionsRemover.specBuildDurVariant,
       DisjunctiveConditionsRemover.addConds_none _ _ hex, hf, if_true]
  · have hall : ∀ p ∈ il.zip cl, (FNode.simplify p.2).is_false = false := by
      intro p hp
      rcases hb : (FNode.simplify p.2).is_false with _ | _
      · rfl
      · exact absurd (List.any_eq_true.mpr ⟨p, hp, hb⟩) hf
    simp only
      [DisjunctiveConditionsRemover._create_new_durative_action_with_given_conds_at_given_times,
       DisjunctiveConditionsRemover.specBuildDurVariant,
       DisjunctiveConditionsRemover.addConds_some _ _ hall, hf,
       Bool.false_eq_true, if_false,
       DisjunctiveConditionsRemover.rebuildEffect_funext]
    by_cases hlen : ((da.effects.map
        (fun te => (te.1, te.2.flatMap DisjunctiveConditionsRemover.specRebuildEffect))).filter
        (fun te => !te.2.isEmpty)).length = 0
    · have hnil := List.length_eq_zero.mp hlen
      simp [hlen, hnil]
    · have hnnil : ((da.effects.map
          (fun te => (te.1, te.2.flatMap DisjunctiveConditionsRemover.specRebuildEffect))).filter
          (fun te => !te.2.isEmpty)) ≠ [] := by
        intro hcon
        exact hlen (by simp [hcon])
      simp [hlen, hnnil]

/-- C7: the durative splitter conjoins and DNF-normalizes each interval's
condition list, forms the cartesian product over all intervals' disjunct
sets (singleton when non-OR), builds one candidate variant per product tuple
(discarding a combination as soon as any chosen disjunct simplifies to
FALSE, flattening AND disjuncts into separate conditions), and pairs each
surviving variant with the original action in the translation map. -/
theorem claim_C7 (st : Problem × List (String × Option String))
    (a : DurativeAction) :
    DisjunctiveConditionsRemover.daBranch st a =
      (DisjunctiveConditionsRemover.specDaChoices a).foldl
        (fun st2 choice =>
          match DisjunctiveConditionsRemover.specBuildDurVariant st2.1 a choice with
          | some nda => (st2.1.add_action (.durA nda), st2.2 ++ [(nda.name, some a.name)])
          | none => st2) st := by
  have hL : DisjunctiveConditionsRemover.daBranch st a =
      (prodL (a.conditions.map
          (fun icl => DisjunctiveConditionsRemover.specDisjuncts icl.2))).foldl
        (fun st2 cond_list =>
          match DisjunctiveConditionsRemover._create_new_durative_action_with_given_conds_at_given_times
              st2.1 (a.conditions.map (fun icl => icl.1)) cond_list a with
          | some nda => (st2.1.add_action (.durA nda), st2.2 ++ [(nda.name, some a.name)])
          | none => st2) st := rfl
  rw [hL]
  unfold DisjunctiveConditionsRemover.specDaChoices
  rw [prodL_map_pair (fun icl => icl.1) (fun icl => DisjunctiveConditionsRemover.specDisjuncts icl.2)
    a.conditions]
  rw [List.foldl_map]
  have hstep :
      (fun (st2 : Problem × List (String × Option String)) cond_list =>
        match DisjunctiveConditionsRemover._create_new_durative_action_with_given_conds_at_given_times
            st2.1 (a.conditions.map (fun icl => icl.1)) cond_list a with
        | some nda => (st2.1.add_action (.durA nda), st2.2 ++ [(nda.name, some a.name)])
        | none => st2) =
      (fun (st2 : Problem × List (String × Option String)) ys =>
        match DisjunctiveConditionsRemover.specBuildDurVariant st2.1 a
            ((a.conditions.map (fun icl => icl.1)).zip ys) with
        | some nda => (st2.1.add_action (.durA nda), st2.2 ++ [(nda.name, some a.name)])
        | none => st2) := by
    funext st2 ys
    rw [createDA_eq_specBuild]
  rw [hstep]

/-! ## C10: disjunctive goal whose every disjunct dies -/

/-- The C10 scenario: plain goal `(x ∧ FALSE) ∨ (y ∧ FALSE)` — the DNF is an
OR but every disjunct simplifies to FALSE — plus one real action. -/
def scenarioC10 : Problem :=
  ⟨"p10", [⟨"x"⟩, ⟨"y"⟩, ⟨"d"⟩, ⟨"p"⟩], [],
   [.instA ⟨"go", [.atom "p"], [⟨.atom "d", .trueE, .trueE⟩]⟩],
   [.orE [.andE [.atom "x", .falseE], .andE [.atom "y", .falseE]]], []⟩

/-- C10: if a goal list's DNF is an OR but every disjunct yields no
surviving witness variant, the fresh flag fluent is still added (default
FALSE) and installed as the new (plain or timed) goal, the actions and the
translation map are unchanged (zero witness actions), and the flag is still
recorded among the fresh fluents — so `_compile` still injects its reset
effects, as the concrete scenario shows, leaving the goal without any
witness to set it. -/
theorem claim_C10 :
    (∀ (np : Problem) (m : List (String × Option String)) (fl : List Fluent)
        (goals : List FNode) (timing : Option Nat),
      (dnfExpr (mkAnd goals)).is_or = true →
      (∀ d ∈ (dnfExpr (mkAnd goals)).args,
        DisjunctiveConditionsRemover._create_new_action_with_given_precond
          np d (DisjunctiveConditionsRemover.goalFakeAction np timing) = none) →
      DisjunctiveConditionsRemover._remove_disjunctions_from_goals_adding_new_elements
          np m fl goals timing =
        ((match timing with
          | none =>
            (np.add_fluent (DisjunctiveConditionsRemover.goalFakeFluent np timing)
              FNode.falseE).add_goal
              (FNode.atom (DisjunctiveConditionsRemover.goalFakeFluent np timing).name)
          | some t =>
            (np.add_fluent (DisjunctiveConditionsRemover.goalFakeFluent np timing)
              FNode.falseE).add_timed_goal t
              (FNode.atom (DisjunctiveConditionsRemover.goalFakeFluent np timing).name)),
         m, fl ++ [DisjunctiveConditionsRemover.goalFakeFluent np timing])) ∧
    ((DisjunctiveConditionsRemover._compile scenarioC10).problem.fluents =
        scenarioC10.fluents ++ [⟨"dcrm_fake_goal"⟩] ∧
     (DisjunctiveConditionsRemover._compile scenarioC10).problem.fluentDefaults =
        [("dcrm_fake_goal", .falseE)] ∧
     (DisjunctiveConditionsRemover._compile scenarioC10).problem.actions =
        [.instA ⟨"go", [.atom "p"],
          [⟨.atom "d", .trueE, .trueE⟩, ⟨.atom "dcrm_fake_goal", .falseE, .trueE⟩]⟩] ∧
     (DisjunctiveConditionsRemover._compile scenarioC10).problem.goals =
        [.atom "dcrm_fake_goal"] ∧
     (DisjunctiveConditionsRemover._compile scenarioC10).map = [("go", some "go")]) := by
  constructor
  · intro np m fl goals timing ho hall
    simp only
      [DisjunctiveConditionsRemover._remove_disjunctions_from_goals_adding_new_elements,
       ho, if_true]
    have hfold : (dnfExpr (mkAnd goals)).args.foldl
        (fun (st : Problem × List (String × Option String)) and_exp =>
          match DisjunctiveConditionsRemover._create_new_action_with_given_precond
              st.1 and_exp (DisjunctiveConditionsRemover.goalFakeAction np timing) with
          | some na => (st.1.add_action (.instA na), st.2 ++ [(na.name, none)])
          | none => st)
        (np, m) = (np, m) := by
      refine foldl_fixed _ (np, m) _ ?_
      intro b hb
      rw [hall b hb]
    rw [hfold]
  · exact ⟨by decide, by decide, by decide, by decide, by decide⟩

/-- Witness for C10: the hypotheses discharged at the concrete degenerate
goal `(x ∧ FALSE) ∨ (y ∧ FALSE)` over the C3 scenario problem. -/
theorem claim_C10_witness :
    DisjunctiveConditionsRemover._remove_disjunctions_from_goals_adding_new_elements
      scenarioC3 [] []
      [.orE [.andE [.atom "x", .falseE], .andE [.atom "y", .falseE]]] none =
    ((scenarioC3.add_fluent
        (DisjunctiveConditionsRemover.goalFakeFluent scenarioC3 none)
        FNode.falseE).add_goal
      (FNode.atom (DisjunctiveConditionsRemover.goalFakeFluent scenarioC3 none).name),
     [], [DisjunctiveConditionsRemover.goalFakeFluent scenarioC3 none]) :=
  claim_C10.1 scenarioC3 [] []
    [.orE [.andE [.atom "x", .falseE], .andE [.atom "y", .falseE]]] none
    (by decide) (by decide)
